import Mathlib

/-!
Shallow embedding of the translate_cli repository (transfold package) in Lean 4.

Text is modelled as `List Char`.  The functions below are direct translations
of `src/transfold/chunking.py`, `src/transfold/translator.py` and the ordered
streaming emitter of `src/transfold/cli.py`.  Python regular expressions are
embedded as executable character-list scanners with the same matching
semantics (leftmost match, lazy/greedy quantifier behaviour as used by the
source patterns).
-/

namespace Transfold

/-- Python whitespace (the set stripped by str.strip() and matched by the
regex class backslash-s on str patterns): ASCII whitespace, the C1/Unicode
space characters, and the Unicode space separators. -/
def pyIsSpace (c : Char) : Bool :=
  c == ' ' || c == '\t' || c == '\n' || c == '\x0b' || c == '\x0c' || c == '\r' ||
  c == '\x1c' || c == '\x1d' || c == '\x1e' || c == '\x1f' || c == '\x85' || c == '\xa0' ||
  c == ' ' || c == ' ' || c == ' ' || c == ' ' || c == ' ' ||
  c == ' ' || c == ' ' || c == ' ' || c == ' ' || c == ' ' ||
  c == ' ' || c == ' ' || c == ' ' || c == ' ' || c == ' ' ||
  c == ' ' || c == '　'

/-- Line boundaries recognised by Python str.splitlines. -/
def isLineBreak (c : Char) : Bool :=
  c == '\n' || c == '\r' || c == '\x0b' || c == '\x0c' || c == '\x1c' ||
  c == '\x1d' || c == '\x1e' || c == '\x85' || c == ' ' || c == ' '

/-- Helper for `pySplitlines`: `acc` holds the current (reversed) line; a
carriage return followed by a line feed counts as a single boundary. -/
def pySplitlinesGo (acc : List Char) : List Char → List (List Char)
  | [] => if acc = [] then [] else [acc.reverse]
  | c :: rest =>
    if c = '\r' ∧ rest.head? = some '\n' then
      (acc.reverse ++ ['\r', '\n']) :: pySplitlinesGo [] rest.tail
    else if isLineBreak c then (acc.reverse ++ [c]) :: pySplitlinesGo [] rest
    else pySplitlinesGo (c :: acc) rest
termination_by l => l.length
decreasing_by
  · simp only [List.length_cons]
    cases rest <;> simp <;> omega
  · simp
  · simp

/-- Python text.splitlines(keepends=True). -/
def pySplitlines (text : List Char) : List (List Char) :=
  pySplitlinesGo [] text

/-- Python str.lstrip() with no argument. -/
def pyLstrip (l : List Char) : List Char :=
  l.dropWhile pyIsSpace

/-- Python str.strip() with no argument. -/
def pyStrip (l : List Char) : List Char :=
  ((l.dropWhile pyIsSpace).reverse.dropWhile pyIsSpace).reverse

/-- A slice of a document that may or may not require translation
(`transfold.chunking.Segment`; the unused `metadata` dict is omitted). -/
structure Segment where
  index : Int
  content : List Char
  translate : Bool := true
  kind : String := "text"
  translation : Option (List Char) := none
deriving DecidableEq, Repr

/-- Segment.output: the translation if present, else the content. -/
def Segment.output (s : Segment) : List Char :=
  match s.translation with
  | some t => t
  | none => s.content

/-- transfold.chunking.SegmentedDocument. -/
structure SegmentedDocument where
  segments : List Segment
deriving DecidableEq, Repr

/-- SegmentedDocument.merge: concatenation of all segment outputs. -/
def SegmentedDocument.merge (d : SegmentedDocument) : List Char :=
  (d.segments.map Segment.output).flatten

/-- A character opening or continuing a code fence (the regex class of
backquote and tilde in _CODE_FENCE_RE). -/
def isFenceChar (c : Char) : Bool :=
  c == Char.ofNat 96 || c == '~'

/-- _CODE_FENCE_RE.match(stripped): a maximal leading run of at least three
fence characters; returns group(1), the fence marker. -/
def fenceMatch (stripped : List Char) : Option (List Char) :=
  let run := stripped.takeWhile isFenceChar
  if 3 ≤ run.length then some run else none

/-- Python startswith("---"). -/
def startsDashes (l : List Char) : Bool :=
  List.isPrefixOf ['-', '-', '-'] l

/-- The collecting loop of _split_front_matter: `collected` is the text of the
lines gathered so far (starting from lines[0]); on the first further line whose
strip() starts with "---" it returns the collected block (closing line
included) and the concatenation of the remaining lines. -/
def fmScan (collected : List Char) : List (List Char) → Option (List Char × List Char)
  | [] => none
  | l :: ls =>
    let c := collected ++ l
    if startsDashes (pyStrip l) then some (c, ls.flatten) else fmScan c ls

/-- transfold.chunking._split_front_matter. -/
def splitFrontMatter (text : List Char) : Option (List Char) × List Char :=
  match pySplitlines text with
  | [] => (none, text)
  | l0 :: ls =>
    if startsDashes (pyStrip l0) then
      match fmScan l0 ls with
      | some (front, rest) => (some front, rest)
      | none => (none, text)
    else (none, text)

/-- Length of the longest prefix of `w` that ends with a newline
(0 when `w` has no newline). -/
def lastNlLen (w : List Char) : Nat :=
  w.length - (w.reverse.takeWhile (fun c => c != '\n')).length

/-- Length of the match of _PARAGRAPH_SPLIT_RE (a newline, a greedy run of
whitespace, a newline) at the head of `l`; none when the pattern does not
match there. -/
def paraSepLen : List Char → Option Nat
  | [] => none
  | c :: rest =>
    if c = '\n' then
      let k := lastNlLen (rest.takeWhile pyIsSpace)
      if k = 0 then none else some (k + 1)
    else none

theorem paraSepLen_pos {l : List Char} {n : Nat} (h : paraSepLen l = some n) :
    1 ≤ n ∧ n ≤ l.length := by
  match l with
  | [] => simp [paraSepLen] at h
  | c :: rest =>
    simp only [paraSepLen] at h
    split at h
    · split at h
      · exact absurd h (by simp)
      · rename_i hk
        have hw : lastNlLen (rest.takeWhile pyIsSpace) ≤ rest.length := by
          have h1 : lastNlLen (rest.takeWhile pyIsSpace) ≤ (rest.takeWhile pyIsSpace).length :=
            Nat.sub_le _ _
          exact le_trans h1 (List.takeWhile_prefix _).length_le
        simp only [Option.some.injEq] at h
        subst h
        constructor
        · omega
        · simp only [List.length_cons]
          omega
    · exact absurd h (by simp)

/-- re.split on _PARAGRAPH_SPLIT_RE with its capture group: the scanner walks
the text; at each position a separator match yields the pending non-match
chunk, then the separator itself, as successive tokens. -/
def paraSplitGo (acc : List Char) (l : List Char) : List (List Char) :=
  match hl : l with
  | [] => [acc.reverse]
  | c :: cs =>
    match hp : paraSepLen l with
    | some n => acc.reverse :: l.take n :: paraSplitGo [] (l.drop n)
    | none => paraSplitGo (c :: acc) cs
termination_by l.length
decreasing_by
  · have := paraSepLen_pos hp
    simp only [hl, List.length_drop, List.length_cons] at *
    omega
  · simp [hl]

/-- Token list of re.split(_PARAGRAPH_SPLIT_RE, text). -/
def paraSplit (text : List Char) : List (List Char) :=
  paraSplitGo [] text

/-- Sentence-ending punctuation class of _SENTENCE_RE. -/
def isPunct (c : Char) : Bool :=
  c == '.' || c == '!' || c == '?' || c == '。' || c == '！' || c == '？' ||
  c == '；' || c == ';'

/-- The tail of _SENTENCE_RE after the lazy dot-plus: given the suffix at the
current position, returns the number of extra characters the tail consumes
when it matches (punctuation then whitespace consumes two, punctuation at
end-of-text one, a bare end-of-text anchor zero — also before a final
newline), or none. -/
def sentTryT : List Char → Option Nat
  | [] => some 0
  | c :: s =>
    if isPunct c then
      match s with
      | [] => some 1
      | d :: _ => if pyIsSpace d then some 2 else none
    else if c = '\n' ∧ s = [] then some 0 else none

/-- The lazy scan of _SENTENCE_RE: having consumed `consumed` characters with
the dot-plus, extend one character at a time until the tail matches; returns
the total match length. -/
def sentScan (consumed : Nat) : List Char → Nat
  | [] => consumed
  | s@(_ :: s2) =>
    match sentTryT s with
    | some extra => consumed + extra
    | none => sentScan (consumed + 1) s2

theorem sentScan_ge (s : List Char) : ∀ k, k ≤ sentScan k s := by
  induction s with
  | nil => intro k; simp [sentScan]
  | cons c cs ih =>
    intro k
    simp only [sentScan]
    match sentTryT (c :: cs) with
    | some extra => simp
    | none => exact le_trans (Nat.le_succ k) (ih (k + 1))

/-- _SENTENCE_RE.findall: successive leftmost matches covering the text. -/
def sentFindAll (l : List Char) : List (List Char) :=
  match l with
  | [] => []
  | c :: rest =>
    (c :: rest).take (sentScan 1 rest) :: sentFindAll ((c :: rest).drop (sentScan 1 rest))
termination_by l.length
decreasing_by
  have hn : 1 ≤ sentScan 1 rest := sentScan_ge rest 1
  simp only [List.length_drop, List.length_cons]
  omega

/-- transfold.chunking._split_sentences. -/
def splitSentences (text : List Char) : List (List Char) :=
  (sentFindAll text).filter (fun s => !s.isEmpty)

/-- transfold.chunking._chunk_plain; `size` is positive at every call site
(the enclosing branch of _enforce_max_chars guarantees it). -/
def chunkPlain (l : List Char) (size : Nat) : List (List Char) :=
  match l with
  | [] => []
  | c :: cs =>
    if size = 0 then []
    else (c :: cs).take size :: chunkPlain ((c :: cs).drop size) size
termination_by l.length
decreasing_by
  simp only [List.length_drop, List.length_cons]
  omega

/-- The mutable (parts, current) pair of _enforce_max_chars. -/
structure EnfState where
  parts : List (List Char)
  current : List Char
deriving DecidableEq, Repr

/-- The local append_current helper of _enforce_max_chars. -/
def appendCurrent (st : EnfState) : EnfState :=
  if st.current = [] then st else ⟨st.parts ++ [st.current], []⟩

/-- The inner sentence loop of _enforce_max_chars. -/
def sentLoop (maxC : Nat) (st : EnfState) : List (List Char) → EnfState
  | [] => st
  | s :: ss =>
    if maxC < s.length then
      sentLoop maxC { st with parts := st.parts ++ chunkPlain s maxC } ss
    else
      let st1 := if maxC < st.current.length + s.length then appendCurrent st else st
      sentLoop maxC { st1 with current := st1.current ++ s } ss

/-- The outer token loop of _enforce_max_chars. -/
def tokLoop (maxC : Nat) (st : EnfState) : List (List Char) → EnfState
  | [] => st
  | t :: ts =>
    if t = [] then tokLoop maxC st ts
    else if maxC < t.length then
      tokLoop maxC (appendCurrent (sentLoop maxC (appendCurrent st) (splitSentences t))) ts
    else
      let st1 := if maxC < st.current.length + t.length then appendCurrent st else st
      tokLoop maxC { st1 with current := st1.current ++ t } ts

/-- transfold.chunking._enforce_max_chars. -/
def enforceMaxChars (text : List Char) (maxChars : Int) : List (List Char) :=
  if maxChars ≤ 0 ∨ (text.length : Int) ≤ maxChars then [text]
  else (appendCurrent (tokLoop maxChars.toNat ⟨[], []⟩ (paraSplit text))).parts

/-- The flush_buffer helper of _split_markdown_body. -/
def flushBuffer (limit : Int) (buffer : List (List Char)) : List Segment :=
  if buffer = [] then []
  else (enforceMaxChars buffer.flatten limit).map
    (fun p => { index := -1, content := p, translate := true, kind := "text" })

/-- The inner while loop of the code-fence branch: collect lines until one
whose lstrip() starts with the fence marker (inclusive); returns the collected
lines and the remaining lines. -/
def takeFence (fence : List Char) : List (List Char) → List (List Char) × List (List Char)
  | [] => ([], [])
  | l :: ls =>
    if List.isPrefixOf fence (pyLstrip l) then ([l], ls)
    else
      let p := takeFence fence ls
      (l :: p.1, p.2)

theorem takeFence_snd_length (fence : List Char) (ls : List (List Char)) :
    (takeFence fence ls).2.length ≤ ls.length := by
  induction ls with
  | nil => simp [takeFence]
  | cons l ls ih =>
    simp only [takeFence]
    split
    · simp
    · simpa using le_trans ih (Nat.le_succ _)

/-- The main line scan of _split_markdown_body (the while loop over lines,
with the running text buffer). -/
def bodyLoop (limit : Int) (preserveCode : Bool) (buffer : List (List Char)) :
    List (List Char) → List Segment
  | [] => flushBuffer limit buffer
  | line :: ls =>
    match (if preserveCode then fenceMatch (pyLstrip line) else none) with
    | some fence =>
      let p := takeFence fence ls
      flushBuffer limit buffer ++
        ({ index := -1, content := (line :: p.1).flatten, translate := false, kind := "code" }
          :: bodyLoop limit preserveCode [] p.2)
    | none => bodyLoop limit preserveCode (buffer ++ [line]) ls
termination_by lines => lines.length
decreasing_by
  · have := takeFence_snd_length fence ls
    simp only [List.length_cons]
    omega
  · simp

/-- transfold.chunking._split_markdown_body. -/
def splitMarkdownBody (text : List Char) (maxChars : Int) (preserveCode : Bool)
    (splitThreshold : Option Int) : List Segment :=
  let singlePass : Bool :=
    match splitThreshold with
    | none => false
    | some t => decide (0 < t) && decide ((text.length : Int) ≤ t)
  let effectiveLimit := if singlePass then max maxChars (text.length : Int) else maxChars
  bodyLoop effectiveLimit preserveCode [] (pySplitlines text)

/-- Reassignment of dense 0-based indices in segment_document. -/
def reindex (segs : List Segment) : List Segment :=
  segs.mapIdx (fun i s => { s with index := (i : Int) })

/-- transfold.chunking.segment_document with the (only supported) markdown
strategy. -/
def segmentDocument (text : List Char) (maxChars : Int := 4000)
    (preserveCode : Bool := true) (preserveFrontmatter : Bool := true)
    (splitThreshold : Option Int := none) : SegmentedDocument :=
  let fmAndRest : List Segment × List Char :=
    if preserveFrontmatter && startsDashes text then
      match splitFrontMatter text with
      | (some front, rest) =>
        ([{ index := 0, content := front, translate := false, kind := "front_matter" }], rest)
      | (none, _) => ([], text)
    else ([], text)
  ⟨reindex (fmAndRest.1 ++ splitMarkdownBody fmAndRest.2 maxChars preserveCode splitThreshold)⟩

/-! Translator embedding (src/transfold/translator.py). -/

/-- transfold.translator.TranslatorStats (the dataclass fields, in order). -/
structure TranslatorStats where
  total_segments : Nat := 0
  api_calls : Nat := 0
  retries : Nat := 0
  prompt_tokens : Nat := 0
  completion_tokens : Nat := 0
  batches : Nat := 0
deriving DecidableEq, Repr

/-- The counter names of the TranslatorStats dataclass, in declaration order
(src/transfold/translator.py lines 38-45). -/
def translatorStatsFields : List String :=
  ["total_segments", "api_calls", "retries", "prompt_tokens", "completion_tokens", "batches"]

/-- Modelled from the spec: the counter list the specification ascribes to
TranslatorStats (spec section 3), which includes a cached_segments counter
that the source dataclass does not declare. -/
def specTranslatorStatsFields : List String :=
  ["total_segments", "api_calls", "batches", "retries", "prompt_tokens",
   "completion_tokens", "cached_segments"]

/-- The keyword parameter names of OpenRouterTranslator.__init__
(src/transfold/translator.py lines 56-74): no cache collaborator is among
them. -/
def openRouterInitParams : List String :=
  ["api_key", "model", "target_lang", "source_lang", "timeout", "retry",
   "concurrency", "max_batch_chars", "max_batch_segments", "max_pending_batches",
   "glossary", "progress_callback", "retry_callback", "system_prompt", "debug"]

/-- The limit clamping performed by OpenRouterTranslator.__init__:
max_batch_chars, max_batch_segments, the request-concurrency semaphore
permits, and the pending-batch semaphore permits, in that order. -/
def translatorInitLimits (maxBatchChars maxBatchSegments concurrency : Int)
    (maxPendingBatches : Option Int) : Int × Int × Int × Int :=
  let pendingBatches :=
    match maxPendingBatches with
    | some p => p
    | none => max 1 (concurrency * 2)
  (max 1 maxBatchChars, max 1 maxBatchSegments, max 1 concurrency, max 1 pendingBatches)

/-- Token usage as consumed by the scheduler: Python's falsy usage dicts
(None or empty) are none; otherwise the prompt_tokens and completion_tokens
values read with .get(key, 0). -/
def addUsage (st : TranslatorStats) : Option (Nat × Nat) → TranslatorStats
  | none => st
  | some (p, c) =>
    { st with prompt_tokens := st.prompt_tokens + p,
              completion_tokens := st.completion_tokens + c }

/-- Whether translate_segments sends a segment to the remote service: it must
be marked translatable and have non-whitespace content; all other segments are
resolved in place as pass-through copies. -/
def isBatchable (s : Segment) : Bool :=
  s.translate && !(pyStrip s.content).isEmpty

/-- The batch-packing loop of translate_segments: `batch` and `chars` are the
running batch and its character total; flushed batches are emitted in order. -/
def packGo (maxSegs maxChars : Nat) (batch : List Segment) (chars : Nat) :
    List Segment → List (List Segment)
  | [] => if batch = [] then [] else [batch]
  | s :: ss =>
    if !(isBatchable s) then packGo maxSegs maxChars batch chars ss
    else
      let n := s.content.length
      if batch ≠ [] ∧ (maxSegs ≤ batch.length ∨ maxChars < chars + n) then
        batch :: packGo maxSegs maxChars [s] n ss
      else packGo maxSegs maxChars (batch ++ [s]) (chars + n) ss

/-- The batches dispatched by translate_segments for a segment list. -/
def packSegments (maxSegs maxChars : Nat) (segments : List Segment) :
    List (List Segment) :=
  packGo maxSegs maxChars [] 0 segments

/-- Outcome of one _request_batch call, as observed by _translate_batch. -/
inductive BatchOutcome where
  | mismatch (usage : Option (Nat × Nat))
  | failure (err : String)
  | success (translations : List (List Char)) (usage : Option (Nat × Nat))
deriving DecidableEq, Repr

/-- Outcome of one _request_single call, as observed by
_translate_batch_individually. -/
inductive SingleOutcome where
  | failure (err : String)
  | success (translation : List Char) (usage : Option (Nat × Nat))
deriving DecidableEq, Repr

/-- Observable actions of a _translate_batch run: network requests, the retry
observer invocation, the backoff sleep, and progress reports. -/
inductive Event where
  | batchRequest (size : Nat)
  | singleRequest (content : List Char)
  | retryCallback (attempt : Nat) (err : String) (delay : ℚ)
  | sleep (delay : ℚ)
  | progress (n : Nat)
deriving DecidableEq, Repr

/-- Result of a _translate_batch run: normal return, the terminal
TranslationError raised after the loop with the last observed error (none
encodes the "Unknown error" message), the TranslationError raised on a
mismatched translation count in the success branch, or an exception from a
fallback single request, which propagates uncaught. -/
inductive BatchResult where
  | ok
  | translationError (lastError : Option String)
  | mismatchedCount
  | singleFailure (err : String)
deriving DecidableEq, Repr

/-- The exponential backoff delay of _translate_batch before jitter:
min(30.0, 2 ** (attempt - 1)). -/
def backoffDelay (attempt : Nat) : ℚ :=
  min 30 (2 ^ (attempt - 1))

/-- transfold.translator.OpenRouterTranslator._translate_batch_individually:
one _request_single per segment, in order, with no retry; a failing call
raises immediately, leaving later segments untouched.  `callIdx` numbers the
single-request oracle calls. -/
def translateIndividually (singleOracle : Nat → SingleOutcome) (callIdx : Nat)
    (st : TranslatorStats) (evs : List Event) :
    List Segment → TranslatorStats × List Event × List Segment × Option String
  | [] => (st, evs, [], none)
  | seg :: rest =>
    let evs := evs ++ [Event.singleRequest seg.content]
    match singleOracle callIdx with
    | SingleOutcome.failure e => (st, evs, seg :: rest, some e)
    | SingleOutcome.success t u =>
      let st := addUsage st u
      let st := { st with api_calls := st.api_calls + 1 }
      let evs := evs ++ [Event.progress 1]
      let r := translateIndividually singleOracle (callIdx + 1) st evs rest
      (r.1, r.2.1, { seg with translation := some t } :: r.2.2.1, r.2.2.2)

/-- The retry loop of transfold.translator.OpenRouterTranslator._translate_batch,
with the remote call abstracted as an oracle per attempt and the random jitter
as an oracle per attempt.  Returns the final stats, the events in order, the
batch with whatever translations were assigned, and the control-flow result. -/
def translateBatchGo (retry : Nat) (batchOracle : Nat → BatchOutcome)
    (singleOracle : Nat → SingleOutcome) (jitter : Nat → ℚ) (batch : List Segment)
    (attempt : Nat) (lastError : Option String) (st : TranslatorStats)
    (evs : List Event) : TranslatorStats × List Event × List Segment × BatchResult :=
  if retry < attempt then (st, evs, batch, BatchResult.translationError lastError)
  else
    let evs := evs ++ [Event.batchRequest batch.length]
    match batchOracle attempt with
    | BatchOutcome.mismatch u =>
      let st := addUsage st u
      let st := { st with api_calls := st.api_calls + 1, batches := st.batches + 1 }
      let r := translateIndividually singleOracle 0 st evs batch
      match r.2.2.2 with
      | none => (r.1, r.2.1, r.2.2.1, BatchResult.ok)
      | some e => (r.1, r.2.1, r.2.2.1, BatchResult.singleFailure e)
    | BatchOutcome.failure e =>
      if retry ≤ attempt then (st, evs, batch, BatchResult.translationError (some e))
      else
        let st := { st with retries := st.retries + 1 }
        let d := backoffDelay attempt + jitter attempt
        let evs := evs ++ [Event.retryCallback attempt e d, Event.sleep d]
        translateBatchGo retry batchOracle singleOracle jitter batch (attempt + 1)
          (some e) st evs
    | BatchOutcome.success ts u =>
      if ts.length ≠ batch.length then (st, evs, batch, BatchResult.mismatchedCount)
      else
        let st := addUsage st u
        let st := { st with api_calls := st.api_calls + 1, batches := st.batches + 1 }
        let evs := evs ++ [Event.progress batch.length]
        (st, evs,
          List.zipWith (fun seg t => { seg with translation := some t }) batch ts,
          BatchResult.ok)
termination_by retry + 1 - attempt

/-- A full _translate_batch run starting at attempt 1 with no prior error. -/
def translateBatch (retry : Nat) (batchOracle : Nat → BatchOutcome)
    (singleOracle : Nat → SingleOutcome) (jitter : Nat → ℚ) (batch : List Segment)
    (st : TranslatorStats) : TranslatorStats × List Event × List Segment × BatchResult :=
  translateBatchGo retry batchOracle singleOracle jitter batch 1 none st []

/-! Batch response parsing (OpenRouterTranslator._parse_batch_response). -/

/-- The reserved delimiter self._batch_delimiter. -/
def batchDelimiter : List Char :=
  "<TRANSFOLD_SEGMENT_BREAK>".toList

/-- Python str.split(sep) for a non-empty separator: leftmost, non-overlapping
occurrences; an empty separator is mapped to the whole text (Python raises
there; never reached since the delimiter is a constant). -/
def splitOnSepGo (sep : List Char) (acc : List Char) : List Char → List (List Char)
  | [] => [acc.reverse]
  | c :: cs =>
    if h : List.isPrefixOf sep (c :: cs) ∧ sep ≠ [] then
      acc.reverse :: splitOnSepGo sep [] ((c :: cs).drop sep.length)
    else splitOnSepGo sep (c :: acc) cs
termination_by l => l.length
decreasing_by
  · obtain ⟨hp, hne⟩ := h
    have : 1 ≤ sep.length := by
      cases sep with
      | nil => simp at hne
      | cons x xs => simp
    simp only [List.length_drop, List.length_cons]
    omega
  · simp

/-- Python text.split(sep). -/
def splitOnSep (sep : List Char) (text : List Char) : List (List Char) :=
  splitOnSepGo sep [] text

/-- Python item.strip(newline): leading and trailing newline characters
removed. -/
def stripNl (l : List Char) : List Char :=
  ((l.dropWhile (fun c => c == '\n')).reverse.dropWhile (fun c => c == '\n')).reverse

/-- transfold.translator.OpenRouterTranslator._parse_batch_response on an
already-normalized string message: split on the delimiter, keep each
newline-stripped fragment whose strip() is non-empty, and require the count to
match; a mismatch carries (expected, actual). -/
def parseBatchResponse (text : List Char) (expected : Nat) :
    Except (Nat × Nat) (List (List Char)) :=
  let results := (splitOnSep batchDelimiter text).filterMap
    (fun item =>
      let candidate := stripNl item
      if pyStrip candidate ≠ [] then some candidate else none)
  if results.length ≠ expected then Except.error (expected, results.length)
  else Except.ok results

/-- Modelled from the spec: the parse the claim describes — split on the
delimiter, discard only the empty trailing fragments produced by a trailing
delimiter, require the count to equal the batch size, and return the fragments
themselves in order. -/
def parseBatchResponseSpec (text : List Char) (expected : Nat) :
    Except (Nat × Nat) (List (List Char)) :=
  let parts := splitOnSep batchDelimiter text
  let kept := (parts.reverse.dropWhile (fun p => p.isEmpty)).reverse
  if kept.length ≠ expected then Except.error (expected, kept.length)
  else Except.ok kept

/-- The amended description of _parse_batch_response, phrased independently:
newline-strip every fragment, then drop every fragment that is empty or
whitespace-only, wherever it occurs. -/
def parseBatchResponseAmended (text : List Char) (expected : Nat) :
    Except (Nat × Nat) (List (List Char)) :=
  let frags := ((splitOnSep batchDelimiter text).map stripNl).filter
    (fun f => !(f.all pyIsSpace))
  if frags.length = expected then Except.ok frags
  else Except.error (expected, frags.length)

/-! Ordered streaming emitter (src/transfold/cli.py, _collect_ready_chunk and
stream_segment inside process_document). -/

/-- The while loop of _collect_ready_chunk: starting at index `i`, collect the
output() of each consecutive segment that is ready (not translatable, or
already translated), returning the collected outputs and the index where the
walk stopped. -/
def collectReadyChunk (segs : List Segment) (i : Nat) : List (List Char) × Nat :=
  if h : i < segs.length then
    let seg := segs[i]
    if seg.translate ∧ seg.translation = none then ([], i)
    else
      let r := collectReadyChunk segs (i + 1)
      (seg.output :: r.1, r.2)
  else ([], i)
termination_by segs.length - i

/-- Setting translation on segment `i` when a segment resolves (the
assignment segment.translation = value observed through the shared list). -/
def setTranslation (segs : List Segment) (i : Nat) (t : List Char) : List Segment :=
  match segs[i]? with
  | none => segs
  | some seg => segs.set i { seg with translation := some t }

/-- The emitter state of process_document: the shared segment list, the
next_emit_index counter, and the chunks emitted so far together with the index
range each one covered. -/
structure EmitState where
  segs : List Segment
  nextEmit : Nat
  emitted : List (List Char × Nat × Nat)
deriving DecidableEq, Repr

/-- One segment resolution followed by the stream_segment callback: set the
translation, collect the ready chunk (the index advances even when the chunk
text is empty), and emit the chunk when it is non-empty. -/
def emitStep (st : EmitState) (ev : Nat × List Char) : EmitState :=
  let segs := setTranslation st.segs ev.1 ev.2
  let r := collectReadyChunk segs st.nextEmit
  let chunk := r.1.flatten
  { segs := segs
    nextEmit := r.2
    emitted := if chunk = [] then st.emitted
               else st.emitted ++ [(chunk, st.nextEmit, r.2)] }

/-- A whole streaming run: segments resolving in the order given by `events`
(each event carries the segment index and the translation assigned). -/
def runEmitter (segs : List Segment) (events : List (Nat × List Char)) : EmitState :=
  events.foldl emitStep ⟨segs, 0, []⟩

/-- Concatenated outputs of the first `i` segments. -/
def mergeUpTo (segs : List Segment) (i : Nat) : List Char :=
  ((segs.take i).map Segment.output).flatten

/-- Total content length of a batch (the running batch_chars quantity). -/
def batchCharSum (b : List Segment) : Nat :=
  (b.map (fun s => s.content.length)).sum

/-- Content length of the first segment of a batch (0 for an empty batch). -/
def batchHeadLen (b : List Segment) : Nat :=
  (b.map (fun s => s.content.length)).headI

/-- prompt_tokens contribution of a usage value (0 when the dict is falsy). -/
def usagePt : Option (Nat × Nat) → Nat
  | none => 0
  | some (p, _) => p

/-- completion_tokens contribution of a usage value (0 when the dict is
falsy). -/
def usageCt : Option (Nat × Nat) → Nat
  | none => 0
  | some (_, c) => c

/-! Helper lemmas about the segmenter. -/

theorem pySplitlinesGo_flatten (acc l : List Char) :
    (pySplitlinesGo acc l).flatten = acc.reverse ++ l := by
  induction acc, l using pySplitlinesGo.induct with
  | case1 => simp [pySplitlinesGo]
  | case2 acc h => simp [pySplitlinesGo, h]
  | case3 acc c rest h ih =>
    obtain ⟨rfl, hh⟩ := h
    obtain ⟨rest2, rfl⟩ : ∃ r, rest = '\n' :: r := by
      cases rest with
      | nil => simp at hh
      | cons x xs =>
        simp only [List.head?_cons, Option.some.injEq] at hh
        exact ⟨xs, by rw [hh]⟩
    rw [pySplitlinesGo, if_pos (by simp)]
    simp only [List.tail_cons] at ih
    simp [ih]
  | case4 acc c rest h hb ih =>
    rw [pySplitlinesGo, if_neg h, if_pos hb]
    simp [ih]
  | case5 acc c rest h hb ih =>
    rw [pySplitlinesGo, if_neg h, if_neg hb, ih]
    simp

theorem pySplitlines_flatten (text : List Char) :
    (pySplitlines text).flatten = text := by
  simpa using pySplitlinesGo_flatten [] text

theorem pySplitlines_nil : pySplitlines ([] : List Char) = [] := by
  simp [pySplitlines, pySplitlinesGo]

theorem enforceMaxChars_of_le {text : List Char} {maxChars : Int}
    (h : maxChars ≤ 0 ∨ (text.length : Int) ≤ maxChars) :
    enforceMaxChars text maxChars = [text] := by
  rw [enforceMaxChars, if_pos h]

theorem chunkPlain_sizes (l : List Char) (size : Nat) :
    ∀ p ∈ chunkPlain l size, p.length ≤ size := by
  induction l, size using chunkPlain.induct with
  | case1 size => simp [chunkPlain]
  | case2 c cs => simp [chunkPlain]
  | case3 size c cs h ih =>
    simp only [chunkPlain, if_neg h]
    intro p hp
    rcases List.mem_cons.mp hp with rfl | hmem
    · simp [List.length_take]
    · exact ih p hmem

theorem appendCurrent_current (st : EnfState) : (appendCurrent st).current = [] := by
  rw [appendCurrent]
  split
  · rename_i h; exact h
  · rfl

theorem appendCurrent_parts {maxC : Nat} {st : EnfState}
    (hp : ∀ p ∈ st.parts, p.length ≤ maxC) (hc : st.current.length ≤ maxC) :
    ∀ p ∈ (appendCurrent st).parts, p.length ≤ maxC := by
  rw [appendCurrent]
  split
  · exact hp
  · intro p hmem
    rcases List.mem_append.mp hmem with h | h
    · exact hp p h
    · simp only [List.mem_singleton] at h
      exact h ▸ hc

theorem sentLoop_inv {maxC : Nat} {st : EnfState} (ss : List (List Char))
    (hp : ∀ p ∈ st.parts, p.length ≤ maxC) (hc : st.current.length ≤ maxC) :
    (∀ p ∈ (sentLoop maxC st ss).parts, p.length ≤ maxC) ∧
      (sentLoop maxC st ss).current.length ≤ maxC := by
  induction ss generalizing st with
  | nil => exact ⟨hp, hc⟩
  | cons s ss ih =>
    simp only [sentLoop]
    split
    · refine ih ?_ (by simpa using hc)
      intro p hmem
      rcases List.mem_append.mp hmem with h | h
      · exact hp p h
      · exact chunkPlain_sizes s maxC p h
    · rename_i hs
      push_neg at hs
      split
      · rename_i hflush
        refine ih (appendCurrent_parts hp hc) ?_
        simp [appendCurrent_current, hs]
      · rename_i hkeep
        push_neg at hkeep
        refine ih hp ?_
        simpa using hkeep

theorem tokLoop_inv {maxC : Nat} {st : EnfState} (ts : List (List Char))
    (hp : ∀ p ∈ st.parts, p.length ≤ maxC) (hc : st.current.length ≤ maxC) :
    (∀ p ∈ (tokLoop maxC st ts).parts, p.length ≤ maxC) ∧
      (tokLoop maxC st ts).current.length ≤ maxC := by
  induction ts generalizing st with
  | nil => exact ⟨hp, hc⟩
  | cons t ts ih =>
    simp only [tokLoop]
    split
    · exact ih hp hc
    · split
      · have h1 := appendCurrent_parts hp hc
        have h2 : (appendCurrent st).current.length ≤ maxC := by
          simp [appendCurrent_current]
        have h3 := @sentLoop_inv _ (appendCurrent st) (splitSentences t) h1 h2
        refine ih (appendCurrent_parts h3.1 h3.2) ?_
        simp [appendCurrent_current]
      · rename_i ht hlen
        push_neg at hlen
        split
        · rename_i hflush
          refine ih (appendCurrent_parts hp hc) ?_
          simp [appendCurrent_current, hlen]
        · rename_i hkeep
          push_neg at hkeep
          refine ih hp ?_
          simpa using hkeep

theorem enforceMaxChars_sizes {maxChars : Int} (hpos : 0 < maxChars)
    (text : List Char) :
    ∀ p ∈ enforceMaxChars text maxChars, (p.length : Int) ≤ maxChars := by
  rw [enforceMaxChars]
  split
  · rename_i h
    rcases h with h | h
    · omega
    · intro p hp
      simp only [List.mem_singleton] at hp
      exact hp ▸ h
  · intro p hp
    have hinv := @tokLoop_inv maxChars.toNat ⟨[], []⟩
      (paraSplit text) (by simp) (by simp)
    have := appendCurrent_parts hinv.1 hinv.2 p hp
    omega

theorem takeFence_append (fence : List Char) (ls : List (List Char)) :
    (takeFence fence ls).1 ++ (takeFence fence ls).2 = ls := by
  induction ls with
  | nil => simp [takeFence]
  | cons l ls ih =>
    simp only [takeFence]
    split
    · simp
    · simpa using ih

theorem output_of_translation_none {s : Segment} (h : s.translation = none) :
    s.output = s.content := by
  simp [Segment.output, h]

theorem flushBuffer_contents_of_le {limit : Int} {buffer : List (List Char)}
    (h : limit ≤ 0 ∨ (buffer.flatten.length : Int) ≤ limit) :
    ((flushBuffer limit buffer).map Segment.content).flatten = buffer.flatten := by
  rw [flushBuffer]
  split
  · rename_i hb
    simp [hb]
  · rw [enforceMaxChars_of_le h]
    simp

theorem flushBuffer_translation_none (limit : Int) (buffer : List (List Char)) :
    ∀ s ∈ flushBuffer limit buffer, s.translation = none := by
  rw [flushBuffer]
  split
  · simp
  · intro s hs
    obtain ⟨p, _, rfl⟩ := List.mem_map.mp hs
    rfl

theorem flushBuffer_sizes {limit : Int} (hpos : 0 < limit)
    (buffer : List (List Char)) :
    ∀ s ∈ flushBuffer limit buffer, (s.content.length : Int) ≤ limit := by
  rw [flushBuffer]
  split
  · simp
  · intro s hs
    obtain ⟨p, hp, rfl⟩ := List.mem_map.mp hs
    exact enforceMaxChars_sizes hpos _ p hp

theorem flushBuffer_single {limit : Int} {buffer : List (List Char)}
    (hb : ¬buffer = []) (h : limit ≤ 0 ∨ (buffer.flatten.length : Int) ≤ limit) :
    flushBuffer limit buffer =
      [{ index := -1, content := buffer.flatten, translate := true, kind := "text" }] := by
  rw [flushBuffer, if_neg hb, enforceMaxChars_of_le h]
  rfl

theorem bodyLoop_contents (limit : Int) (pc : Bool) (buffer lines : List (List Char)) :
    (limit ≤ 0 ∨ ((buffer.flatten ++ lines.flatten).length : Int) ≤ limit) →
    ((bodyLoop limit pc buffer lines).map Segment.content).flatten =
      buffer.flatten ++ lines.flatten := by
  induction buffer, lines using bodyLoop.induct limit pc with
  | case1 buffer =>
    intro hH
    rw [bodyLoop]
    simpa using flushBuffer_contents_of_le (by simpa using hH)
  | case2 buffer l ls t hfence p ih =>
    intro hH
    rw [bodyLoop]
    simp only [dite_eq_ite] at hfence
    rw [hfence]
    have hsplit := takeFence_append t ls
    have hls : ls.flatten = (takeFence t ls).1.flatten ++ (takeFence t ls).2.flatten := by
      conv_lhs => rw [← hsplit]
      simp
    have htot : ((takeFence t ls).2.flatten.length : Int) ≤
        ((buffer.flatten ++ (l :: ls).flatten).length : Int) := by
      simp only [List.flatten_cons, List.length_append, hls]
      push_cast
      omega
    have hH1 : limit ≤ 0 ∨ (buffer.flatten.length : Int) ≤ limit := by
      rcases hH with h | h
      · exact Or.inl h
      · refine Or.inr (le_trans ?_ h)
        simp only [List.length_append]
        push_cast
        omega
    have hH2 : limit ≤ 0 ∨
        ((([] : List (List Char)).flatten ++ (takeFence t ls).2.flatten).length : Int) ≤ limit := by
      rcases hH with h | h
      · exact Or.inl h
      · refine Or.inr (le_trans ?_ h)
        simpa using htot
    simp only [List.map_append, List.map_cons, List.flatten_append, List.flatten_cons,
      flushBuffer_contents_of_le hH1]
    rw [show p = takeFence t ls from rfl] at ih
    rw [ih hH2]
    simp [hls]
  | case3 buffer l ls hfence ih =>
    intro hH
    rw [bodyLoop]
    simp only [dite_eq_ite] at hfence
    rw [hfence]
    have hH2 : limit ≤ 0 ∨
        (((buffer ++ [l]).flatten ++ ls.flatten).length : Int) ≤ limit := by
      rcases hH with h | h
      · exact Or.inl h
      · refine Or.inr (le_of_le_of_eq ?_ rfl)
        refine le_trans (le_of_eq ?_) h
        simp
    rw [ih hH2]
    simp

theorem bodyLoop_translation_none (limit : Int) (pc : Bool)
    (buffer lines : List (List Char)) :
    ∀ s ∈ bodyLoop limit pc buffer lines, s.translation = none := by
  induction buffer, lines using bodyLoop.induct limit pc with
  | case1 buffer =>
    rw [bodyLoop]
    exact flushBuffer_translation_none _ _
  | case2 buffer l ls t hfence p ih =>
    rw [bodyLoop]
    simp only [dite_eq_ite] at hfence
    rw [hfence]
    intro s hs
    rcases List.mem_append.mp hs with h | h
    · exact flushBuffer_translation_none _ _ s h
    · rcases List.mem_cons.mp h with rfl | h2
      · rfl
      · exact ih s h2
  | case3 buffer l ls hfence ih =>
    rw [bodyLoop]
    simp only [dite_eq_ite] at hfence
    rw [hfence]
    exact ih

theorem bodyLoop_sizes {limit : Int} (hpos : 0 < limit) (pc : Bool)
    (buffer lines : List (List Char)) :
    ∀ s ∈ bodyLoop limit pc buffer lines, s.translate = true →
      (s.content.length : Int) ≤ limit := by
  induction buffer, lines using bodyLoop.induct limit pc with
  | case1 buffer =>
    rw [bodyLoop]
    intro s hs _
    exact flushBuffer_sizes hpos _ s hs
  | case2 buffer l ls t hfence p ih =>
    rw [bodyLoop]
    simp only [dite_eq_ite] at hfence
    rw [hfence]
    intro s hs htr
    rcases List.mem_append.mp hs with h | h
    · exact flushBuffer_sizes hpos _ s h
    · rcases List.mem_cons.mp h with rfl | h2
      · simp at htr
      · exact ih s h2 htr
  | case3 buffer l ls hfence ih =>
    rw [bodyLoop]
    simp only [dite_eq_ite] at hfence
    rw [hfence]
    exact ih

theorem bodyLoop_nofence (limit : Int) (pc : Bool) (buffer lines : List (List Char))
    (hf : pc = true → ∀ line ∈ lines, fenceMatch (pyLstrip line) = none) :
    bodyLoop limit pc buffer lines = flushBuffer limit (buffer ++ lines) := by
  induction lines generalizing buffer with
  | nil => rw [bodyLoop]; simp
  | cons l ls ih =>
    rw [bodyLoop]
    have hnone : (if pc = true then fenceMatch (pyLstrip l) else none) = none := by
      split
      · rename_i hpc
        exact hf hpc l (List.mem_cons_self _ _)
      · rfl
    rw [hnone]
    rw [ih (buffer ++ [l]) (fun hpc line hline => hf hpc line (List.mem_cons_of_mem _ hline))]
    simp

theorem fmScan_append (ls : List (List Char)) :
    ∀ (collected front rest : List Char), fmScan collected ls = some (front, rest) →
      front ++ rest = collected ++ ls.flatten := by
  induction ls with
  | nil => intro collected front rest h; simp [fmScan] at h
  | cons l ls ih =>
    intro collected front rest h
    rw [fmScan] at h
    split at h
    · simp only [Option.some.injEq, Prod.mk.injEq] at h
      obtain ⟨rfl, rfl⟩ := h
      simp
    · have := ih (collected ++ l) front rest h
      simpa using this

theorem splitFrontMatter_append {text front rest : List Char}
    (h : splitFrontMatter text = (some front, rest)) : front ++ rest = text := by
  rcases hsl : pySplitlines text with _ | ⟨l0, ls⟩
  · have hred : splitFrontMatter text = (none, text) := by
      rw [splitFrontMatter, hsl]
    rw [hred] at h
    simp at h
  · have hred : splitFrontMatter text =
        if startsDashes (pyStrip l0) = true then
          (match fmScan l0 ls with
            | some (f, r) => (some f, r)
            | none => (none, text))
        else (none, text) := by
      rw [splitFrontMatter, hsl]
    rw [hred] at h
    split at h
    · rcases hfm : fmScan l0 ls with _ | ⟨f, r⟩
      · rw [hfm] at h; simp at h
      · rw [hfm] at h
        simp only [Prod.mk.injEq, Option.some.injEq] at h
        obtain ⟨rfl, rfl⟩ := h
        have h1 := fmScan_append ls l0 f r hfm
        have h2 := pySplitlines_flatten text
        rw [hsl] at h2
        simp only [List.flatten_cons] at h2
        rw [h1, h2]
    · simp at h

theorem reindex_map {α : Type} (f : Segment → α)
    (hf : ∀ (s : Segment) (i : Int), f { s with index := i } = f s)
    (segs : List Segment) : (reindex segs).map f = segs.map f := by
  rw [reindex, List.mapIdx_eq_enum_map, List.map_map]
  have h1 : (f ∘ Function.uncurry fun (i : Nat) (s : Segment) => { s with index := (i : Int) }) =
      (f ∘ Prod.snd) := by
    funext p
    cases p with
    | mk i s => exact hf s i
  rw [h1, ← List.map_map, List.enum_map_snd]

theorem mem_reindex {segs : List Segment} {s : Segment} (h : s ∈ reindex segs) :
    ∃ s0 ∈ segs, s.content = s0.content ∧ s.translate = s0.translate ∧
      s.translation = s0.translation := by
  rw [reindex, List.mapIdx_eq_enum_map] at h
  obtain ⟨p, hp, rfl⟩ := List.mem_map.mp h
  refine ⟨p.2, ?_, rfl, rfl, rfl⟩
  have : p.2 ∈ segs.enum.map Prod.snd := List.mem_map_of_mem _ hp
  rwa [List.enum_map_snd] at this

theorem merge_mk_reindex (segs : List Segment) :
    SegmentedDocument.merge ⟨reindex segs⟩ = (segs.map Segment.output).flatten := by
  rw [SegmentedDocument.merge]
  rw [reindex_map Segment.output (by intro s i; rfl)]

theorem map_output_eq_map_content {L : List Segment}
    (h : ∀ s ∈ L, s.translation = none) :
    L.map Segment.output = L.map Segment.content :=
  List.map_congr_left fun s hs => output_of_translation_none (h s hs)

theorem splitMarkdownBody_eq (text : List Char) (maxChars : Int) (pc : Bool)
    (sth : Option Int) :
    splitMarkdownBody text maxChars pc sth =
      bodyLoop
        (if (match sth with
              | none => false
              | some t => decide (0 < t) && decide ((text.length : Int) ≤ t)) = true
          then max maxChars (text.length : Int) else maxChars)
        pc [] (pySplitlines text) := rfl

theorem splitMarkdownBody_none_eq (text : List Char) (maxChars : Int) (pc : Bool) :
    splitMarkdownBody text maxChars pc none =
      bodyLoop maxChars pc [] (pySplitlines text) := rfl

theorem segmentDocument_plain {text : List Char} {maxChars : Int} {pc pf : Bool}
    {sth : Option Int} (h1 : (pf && startsDashes text) = false) :
    segmentDocument text maxChars pc pf sth =
      ⟨reindex (splitMarkdownBody text maxChars pc sth)⟩ := by
  rw [segmentDocument]
  rw [if_neg (by simp [h1])]
  rfl

theorem segmentDocument_fm {text front rest : List Char} {maxChars : Int}
    {pc pf : Bool} {sth : Option Int} (h1 : (pf && startsDashes text) = true)
    (h2 : splitFrontMatter text = (some front, rest)) :
    segmentDocument text maxChars pc pf sth =
      ⟨reindex
        ({ index := 0, content := front, translate := false, kind := "front_matter" }
          :: splitMarkdownBody rest maxChars pc sth)⟩ := by
  rw [segmentDocument]
  rw [if_pos (by simp [h1]), h2]
  rfl

theorem segmentDocument_fmNone {text rest : List Char} {maxChars : Int}
    {pc pf : Bool} {sth : Option Int} (h1 : (pf && startsDashes text) = true)
    (h2 : splitFrontMatter text = (none, rest)) :
    segmentDocument text maxChars pc pf sth =
      ⟨reindex (splitMarkdownBody text maxChars pc sth)⟩ := by
  rw [segmentDocument]
  rw [if_pos (by simp [h1]), h2]
  rfl

theorem splitMarkdownBody_outputs (rest : List Char) (maxChars : Int) (pc : Bool)
    (sth : Option Int)
    (h : maxChars ≤ 0 ∨ (rest.length : Int) ≤ maxChars ∨
      ∃ t, sth = some t ∧ 0 < t ∧ (rest.length : Int) ≤ t) :
    ((splitMarkdownBody rest maxChars pc sth).map Segment.output).flatten = rest := by
  rw [splitMarkdownBody_eq]
  set b := (match sth with
    | none => false
    | some t => decide (0 < t) && decide ((rest.length : Int) ≤ t)) with hb
  set limit := (if b = true then max maxChars (rest.length : Int) else maxChars) with hlimdef
  have hflat : (pySplitlines rest).flatten = rest := pySplitlines_flatten rest
  have hlim : limit ≤ 0 ∨
      ((([] : List (List Char)).flatten ++ (pySplitlines rest).flatten).length : Int) ≤ limit := by
    have hre : ((([] : List (List Char)).flatten ++ (pySplitlines rest).flatten).length : Int) =
        (rest.length : Int) := by
      simp [hflat]
    rcases h with h1 | h2 | ⟨t, hsth, ht, hlen⟩
    · by_cases hbv : b = true
      · right
        rw [hre, hlimdef, if_pos hbv]
        exact le_max_right _ _
      · left
        rw [hlimdef, if_neg hbv]
        exact h1
    · right
      rw [hre, hlimdef]
      split
      · exact le_trans h2 (le_max_left _ _)
      · exact h2
    · right
      have hbv : b = true := by
        rw [hb, hsth]
        simp [ht, hlen]
      rw [hre, hlimdef, if_pos hbv]
      exact le_max_right _ _
  rw [map_output_eq_map_content (bodyLoop_translation_none limit pc [] (pySplitlines rest))]
  rw [bodyLoop_contents limit pc [] (pySplitlines rest) hlim]
  simpa using hflat

theorem reindex_singleton (s : Segment) : reindex [s] = [{ s with index := 0 }] := by
  rw [reindex, List.mapIdx_eq_enum_map]
  rfl

/-! Claim C3. -/

/-- C3 counterexample: with split_threshold = 100 and a 14-character input whose
body contains a fenced code block, segment_document produces two translatable
segments (the text runs on either side of the fence), not exactly one; the
empty input likewise yields zero.  This refutes the claim that any input no
longer than a positive split_threshold yields exactly one translatable
segment. -/
theorem c3_counterexample :
    ((segmentDocument "a\n```\nc\n```\nb\n".toList 1 true true (some 100)).segments.filter
      (fun s => s.translate)).length ≠ 1 := by
  simp +decide [segmentDocument, splitFrontMatter, fmScan, startsDashes, pySplitlines,
    pySplitlinesGo, isLineBreak, splitMarkdownBody, bodyLoop, flushBuffer, takeFence,
    fenceMatch, isFenceChar, pyLstrip, pyStrip, pyIsSpace, enforceMaxChars, paraSplit,
    paraSplitGo, paraSepLen, lastNlLen, tokLoop, sentLoop, appendCurrent, splitSentences,
    sentFindAll, sentScan, sentTryT, isPunct, chunkPlain, reindex,
    List.mapIdx_eq_enum_map]

/-- C3 (amended): if split_threshold is a positive integer, the input length is
at most split_threshold, the input is non-empty, it does not open with the
front-matter delimiter, and no line opens a code fence honored by
preserve_code, then segment_document produces exactly one translatable
segment, regardless of max_chars. -/
theorem c3_threshold_single_segment (text : List Char) (maxChars : Int)
    (pc pf : Bool) (t : Int) (ht : 0 < t) (hlen : (text.length : Int) ≤ t)
    (hne : text ≠ []) (hnd : startsDashes text = false)
    (hfence : pc = true → ∀ line ∈ pySplitlines text, fenceMatch (pyLstrip line) = none) :
    ((segmentDocument text maxChars pc pf (some t)).segments.filter
      (fun s => s.translate)).length = 1 := by
  have hplain : (pf && startsDashes text) = false := by simp [hnd]
  rw [segmentDocument_plain hplain]
  have hsp : splitMarkdownBody text maxChars pc (some t) =
      bodyLoop (max maxChars (text.length : Int)) pc [] (pySplitlines text) := by
    rw [splitMarkdownBody_eq]
    have hbv : (decide (0 < t) && decide ((text.length : Int) ≤ t)) = true := by
      simp [ht, hlen]
    simp only [hbv, if_true, eq_self_iff_true]
  rw [hsp, bodyLoop_nofence _ _ _ _ hfence]
  simp only [List.nil_append]
  have hlines : ¬(pySplitlines text) = [] := by
    intro hcon
    apply hne
    have := pySplitlines_flatten text
    rw [hcon] at this
    simpa using this.symm
  have hcond : max maxChars (text.length : Int) ≤ 0 ∨
      (((pySplitlines text).flatten.length : Int) ≤ max maxChars (text.length : Int)) := by
    right
    rw [pySplitlines_flatten]
    exact le_max_right _ _
  rw [flushBuffer_single hlines hcond]
  rw [reindex_singleton]
  simp

/-- C3 witness: the amended statement evaluated on a concrete fence-free
document below the threshold. -/
theorem c3_threshold_single_segment_witness :
    ((segmentDocument "hello".toList 1 true true (some 10)).segments.filter
      (fun s => s.translate)).length = 1 :=
  c3_threshold_single_segment "hello".toList 1 true true 10 (by decide) (by decide)
    (by decide) (by decide)
    (by
      intro _
      simp +decide [pySplitlines, pySplitlinesGo, isLineBreak, fenceMatch, pyLstrip,
        pyIsSpace, isFenceChar])

/-! Claim C5. -/

/-- C5 counterexample: merge after segmentation is not the identity for every
input: with max_chars = 5, the input "Hi. aaaaaaaaaa" is segmented into the
hard-wrapped chunks of the over-long sentence BEFORE the pending short
sentence ("aaaaa", "aaaaa", "Hi. "), so the merged output reorders the
text. -/
theorem c5_counterexample :
    (segmentDocument "Hi. aaaaaaaaaa".toList 5 true true none).merge ≠
      "Hi. aaaaaaaaaa".toList := by
  simp +decide [segmentDocument, splitFrontMatter, fmScan, startsDashes, pySplitlines,
    pySplitlinesGo, isLineBreak, splitMarkdownBody, bodyLoop, flushBuffer, takeFence,
    fenceMatch, isFenceChar, pyLstrip, pyStrip, pyIsSpace, enforceMaxChars, paraSplit,
    paraSplitGo, paraSepLen, lastNlLen, tokLoop, sentLoop, appendCurrent, splitSentences,
    sentFindAll, sentScan, sentTryT, isPunct, chunkPlain, reindex,
    SegmentedDocument.merge, Segment.output, List.mapIdx_eq_enum_map]

/-- C5 (amended): with no translation set, merging the segmented document
reproduces the input exactly whenever no text block reaches the size limit:
in particular whenever max_chars is non-positive (enforcement disabled), or
the whole input fits in max_chars, or a positive split_threshold at least the
input length applies.  (As the counterexample shows, it can fail when an
over-limit paragraph mixes short sentences with a hard-wrapped over-long
sentence.) -/
theorem c5_round_trip (text : List Char) (maxChars : Int) (pc pf : Bool)
    (sth : Option Int)
    (h : maxChars ≤ 0 ∨ (text.length : Int) ≤ maxChars ∨
      ∃ t, sth = some t ∧ 0 < t ∧ (text.length : Int) ≤ t) :
    (segmentDocument text maxChars pc pf sth).merge = text := by
  by_cases hfm : (pf && startsDashes text) = true
  · rcases hsf : splitFrontMatter text with ⟨of, rest⟩
    cases of with
    | none =>
      rw [segmentDocument_fmNone hfm hsf, merge_mk_reindex]
      exact splitMarkdownBody_outputs text maxChars pc sth h
    | some front =>
      rw [segmentDocument_fm hfm hsf, merge_mk_reindex]
      have happ : front ++ rest = text := splitFrontMatter_append hsf
      have hrl : (rest.length : Int) ≤ (text.length : Int) := by
        have := congrArg List.length happ
        simp only [List.length_append] at this
        omega
      have h2 : maxChars ≤ 0 ∨ (rest.length : Int) ≤ maxChars ∨
          ∃ t, sth = some t ∧ 0 < t ∧ (rest.length : Int) ≤ t := by
        rcases h with h | h | ⟨t, ha, hb, hc⟩
        · exact Or.inl h
        · exact Or.inr (Or.inl (le_trans hrl h))
        · exact Or.inr (Or.inr ⟨t, ha, hb, le_trans hrl hc⟩)
      simp only [List.map_cons, List.flatten_cons]
      rw [splitMarkdownBody_outputs rest maxChars pc sth h2]
      exact happ
  · rw [segmentDocument_plain (by simpa using hfm), merge_mk_reindex]
    exact splitMarkdownBody_outputs text maxChars pc sth h

/-- C5 witness: the amended round-trip evaluated on a concrete document that
fits within max_chars. -/
theorem c5_round_trip_witness :
    (segmentDocument "ab\ncd".toList 4000 true true none).merge = "ab\ncd".toList :=
  c5_round_trip "ab\ncd".toList 4000 true true none (Or.inr (Or.inl (by decide)))

/-! Claim C6. -/

/-- C6: with a positive max_chars and split_threshold unset, every translatable
segment produced by segment_document has length at most max_chars (hard-wrapped
pieces of an over-long sentence included). -/
theorem c6_size_invariant (text : List Char) (maxChars : Int) (pc pf : Bool)
    (hpos : 0 < maxChars) :
    ∀ s ∈ (segmentDocument text maxChars pc pf none).segments, s.translate = true →
      (s.content.length : Int) ≤ maxChars := by
  intro s hs htr
  have main : ∀ (L : List Segment),
      (∀ s0 ∈ L, s0.translate = true → (s0.content.length : Int) ≤ maxChars) →
      s ∈ reindex L → (s.content.length : Int) ≤ maxChars := by
    intro L hL hmem
    obtain ⟨s0, hs0, hc, ht2, _⟩ := mem_reindex hmem
    rw [hc]
    exact hL s0 hs0 (by rw [← ht2, htr])
  have hbody : ∀ s0 ∈ splitMarkdownBody text maxChars pc none, s0.translate = true →
      (s0.content.length : Int) ≤ maxChars := by
    intro s0 hs0 htr0
    rw [splitMarkdownBody_none_eq] at hs0
    exact bodyLoop_sizes hpos pc [] (pySplitlines text) s0 hs0 htr0
  by_cases hfm : (pf && startsDashes text) = true
  · rcases hsf : splitFrontMatter text with ⟨of, rest⟩
    cases of with
    | none =>
      rw [segmentDocument_fmNone hfm hsf] at hs
      exact main _ hbody hs
    | some front =>
      rw [segmentDocument_fm hfm hsf] at hs
      refine main _ ?_ hs
      intro s0 hs0 htr0
      rcases List.mem_cons.mp hs0 with rfl | h2
      · simp at htr0
      · rw [splitMarkdownBody_none_eq] at h2
        exact bodyLoop_sizes hpos pc [] (pySplitlines rest) s0 h2 htr0
  · rw [segmentDocument_plain (by simpa using hfm)] at hs
    exact main _ hbody hs

/-- C6 witness: the size invariant evaluated on the specification example
input with max_chars = 12, as a closed boolean check. -/
theorem c6_size_invariant_witness :
    ((segmentDocument "First line.\nSecond line that is longer.\nThird line.".toList
      12 true true none).segments.all
        (fun s => !s.translate || decide ((s.content.length : Int) ≤ 12))) = true := by
  rw [List.all_eq_true]
  intro s hs
  have hmain := c6_size_invariant
    "First line.\nSecond line that is longer.\nThird line.".toList 12 true true
    (by decide) s hs
  by_cases htr : s.translate = true
  · simp [htr, hmain htr]
  · simp [Bool.not_eq_true] at htr
    simp [htr]

/-! Packing lemmas (translate_segments batching). -/

theorem packGo_flatten (m c : Nat) (segs : List Segment) :
    ∀ (batch : List Segment) (chars : Nat),
      (packGo m c batch chars segs).flatten =
        batch ++ segs.filter (fun s => isBatchable s) := by
  induction segs with
  | nil =>
    intro batch chars
    rw [packGo]
    split
    · rename_i h; simp [h]
    · simp
  | cons s ss ih =>
    intro batch chars
    rw [packGo]
    simp only []
    split
    · rename_i hskip
      rw [ih]
      have : isBatchable s = false := by
        revert hskip
        cases isBatchable s <;> simp
      simp [List.filter_cons, this]
    · rename_i hkeep
      have hbatch : isBatchable s = true := by
        revert hkeep
        cases isBatchable s <;> simp
      split
      · simp only [List.flatten_cons, ih]
        simp [List.filter_cons, hbatch]
      · rw [ih]
        simp [List.filter_cons, hbatch]

theorem packGo_nonempty (m c : Nat) (segs : List Segment) :
    ∀ (batch : List Segment) (chars : Nat) (b : List Segment),
      b ∈ packGo m c batch chars segs → ¬b = [] := by
  induction segs with
  | nil =>
    intro batch chars b hb
    rw [packGo] at hb
    split at hb
    · simp at hb
    · simp only [List.mem_singleton] at hb
      rename_i hne
      exact hb ▸ hne
  | cons s ss ih =>
    intro batch chars b hb
    rw [packGo] at hb
    simp only [] at hb
    split at hb
    · exact ih batch chars b hb
    · split at hb
      · rename_i hflush
        rcases List.mem_cons.mp hb with rfl | h2
        · exact hflush.1
        · exact ih [s] s.content.length b h2
      · exact ih (batch ++ [s]) (chars + s.content.length) b hb

theorem packGo_length_le (m c : Nat) (hms : 1 ≤ m) (segs : List Segment) :
    ∀ (batch : List Segment) (chars : Nat), batch.length ≤ m →
      ∀ b ∈ packGo m c batch chars segs, b.length ≤ m := by
  induction segs with
  | nil =>
    intro batch chars hbl b hb
    rw [packGo] at hb
    split at hb
    · simp at hb
    · simp only [List.mem_singleton] at hb
      exact hb ▸ hbl
  | cons s ss ih =>
    intro batch chars hbl b hb
    rw [packGo] at hb
    simp only [] at hb
    split at hb
    · exact ih batch chars hbl b hb
    · split at hb
      · rcases List.mem_cons.mp hb with rfl | h2
        · exact hbl
        · exact ih [s] s.content.length (by simpa using hms) b h2
      · rename_i hnoflush
        refine ih (batch ++ [s]) (chars + s.content.length) ?_ b hb
        push_neg at hnoflush
        by_cases hbe : batch = []
        · simp [hbe]
          omega
        · have := (hnoflush hbe).1
          simp only [List.length_append, List.length_singleton]
          omega

theorem packGo_oversized (m c : Nat) (segs : List Segment) :
    ∀ (batch : List Segment) (chars : Nat), chars = batchCharSum batch →
      (∀ s0 ∈ batch, c < s0.content.length → batch = [s0]) →
      ∀ b ∈ packGo m c batch chars segs,
        ∀ s0 ∈ b, c < s0.content.length → b = [s0] := by
  induction segs with
  | nil =>
    intro batch chars hch hover b hb
    rw [packGo] at hb
    split at hb
    · simp at hb
    · simp only [List.mem_singleton] at hb
      exact hb ▸ hover
  | cons s ss ih =>
    intro batch chars hch hover b hb
    rw [packGo] at hb
    simp only [] at hb
    split at hb
    · exact ih batch chars hch hover b hb
    · split at hb
      · rcases List.mem_cons.mp hb with rfl | h2
        · exact hover
        · refine ih [s] s.content.length (by simp [batchCharSum]) ?_ b h2
          intro s0 hs0 _
          simp only [List.mem_singleton] at hs0
          rw [hs0]
      · rename_i hnoflush
        push_neg at hnoflush
        refine ih (batch ++ [s]) (chars + s.content.length)
          (by simp [batchCharSum, hch]) ?_ b hb
        intro s0 hs0 hlen
        rcases List.mem_append.mp hs0 with hin | hin
        · -- an oversized segment already in the batch forces the batch to be a
          -- singleton with over-limit char count, so the flush would have fired
          exfalso
          have hsingle := hover s0 hin hlen
          have hne : ¬batch = [] := by rw [hsingle]; simp
          have hc2 := (hnoflush hne).2
          rw [hsingle] at hch
          simp only [batchCharSum, List.map_cons, List.map_nil, List.sum_cons,
            List.sum_nil] at hch
          omega
        · -- the incoming segment itself is oversized: the running batch must
          -- have been empty, for otherwise chars + n would exceed the budget
          -- and the flush would have fired
          simp only [List.mem_singleton] at hin
          subst hin
          by_cases hbe : batch = []
          · rw [hbe]
            rfl
          · exfalso
            have hc2 := (hnoflush hbe).2
            omega

theorem packGo_first (m c : Nat) (segs : List Segment) :
    ∀ (batch : List Segment) (chars : Nat), ¬batch = [] →
      ∃ ext R2, packGo m c batch chars segs = (batch ++ ext) :: R2 := by
  induction segs with
  | nil =>
    intro batch chars hb
    rw [packGo, if_neg hb]
    exact ⟨[], [], by simp⟩
  | cons s ss ih =>
    intro batch chars hb
    rw [packGo]
    simp only []
    split
    · exact ih batch chars hb
    · split
      · exact ⟨[], packGo m c [s] s.content.length ss, by simp⟩
      · obtain ⟨ext, R2, hr⟩ := ih (batch ++ [s]) (chars + s.content.length) (by simp)
        exact ⟨[s] ++ ext, R2, by rw [hr]; simp⟩

theorem packGo_chain (m c : Nat) (segs : List Segment) :
    ∀ (batch : List Segment) (chars : Nat), chars = batchCharSum batch →
      List.Chain' (fun b1 b2 => m ≤ b1.length ∨ c < batchCharSum b1 + batchHeadLen b2)
        (packGo m c batch chars segs) := by
  induction segs with
  | nil =>
    intro batch chars _
    rw [packGo]
    split
    · exact List.chain'_nil
    · exact List.chain'_singleton _
  | cons s ss ih =>
    intro batch chars hch
    rw [packGo]
    simp only []
    split
    · exact ih batch chars hch
    · split
      · rename_i hflush
        obtain ⟨ext, R2, hr⟩ := packGo_first m c ss [s] s.content.length (by simp)
        rw [hr]
        refine List.Chain'.cons ?_ (by rw [← hr]; exact ih [s] s.content.length (by simp [batchCharSum]))
        rcases hflush.2 with h | h
        · exact Or.inl h
        · right
          have hhead : batchHeadLen (([s] ++ ext)) = s.content.length := by
            simp [batchHeadLen]
          rw [hhead, ← hch]
          exact h
      · exact ih (batch ++ [s]) (chars + s.content.length) (by simp [batchCharSum, hch])

theorem packGo_charBound (m c : Nat) (segs : List Segment) :
    ∀ (batch : List Segment) (chars : Nat), chars = batchCharSum batch →
      (batch.length ≤ 1 ∨ batchCharSum batch ≤ c) →
      ∀ b ∈ packGo m c batch chars segs, b.length ≤ 1 ∨ batchCharSum b ≤ c := by
  induction segs with
  | nil =>
    intro batch chars _ hinv b hb
    rw [packGo] at hb
    split at hb
    · simp at hb
    · simp only [List.mem_singleton] at hb
      exact hb ▸ hinv
  | cons s ss ih =>
    intro batch chars hch hinv b hb
    rw [packGo] at hb
    simp only [] at hb
    split at hb
    · exact ih batch chars hch hinv b hb
    · split at hb
      · rcases List.mem_cons.mp hb with rfl | h2
        · exact hinv
        · exact ih [s] s.content.length (by simp [batchCharSum]) (by simp) b h2
      · rename_i hnoflush
        push_neg at hnoflush
        refine ih (batch ++ [s]) (chars + s.content.length)
          (by simp [batchCharSum, hch]) ?_ b hb
        by_cases hbe : batch = []
        · subst hbe
          left
          simp
        · right
          have hc2 := (hnoflush hbe).2
          have : batchCharSum (batch ++ [s]) = chars + s.content.length := by
            simp [batchCharSum, hch]
          omega

/-! Claim C7. -/

/-- C7: translate_segments packs exactly the translatable, non-whitespace-only
segments, in document order (the concatenation of the batches is the filtered
segment list); with max_batch_segments at least 1 every batch is non-empty and
no batch exceeds max_batch_segments; any batch with at least two segments
respects max_batch_chars, while a single over-sized segment forms its own
one-element batch; and a new batch starts exactly when the previous batch was
full: between consecutive batches, the earlier one either reached the segment
cap or could not absorb the first segment of the later one without exceeding
the character budget. -/
theorem c7_packing (segments : List Segment) (maxSegs maxChars : Nat)
    (hms : 1 ≤ maxSegs) :
    ((packSegments maxSegs maxChars segments).flatten =
      segments.filter (fun s => isBatchable s))
    ∧ (∀ b ∈ packSegments maxSegs maxChars segments, ¬b = [] ∧ b.length ≤ maxSegs)
    ∧ (∀ b ∈ packSegments maxSegs maxChars segments,
        b.length ≤ 1 ∨ batchCharSum b ≤ maxChars)
    ∧ (∀ b ∈ packSegments maxSegs maxChars segments, ∀ s ∈ b,
        maxChars < s.content.length → b = [s])
    ∧ List.Chain'
        (fun b1 b2 => maxSegs ≤ b1.length ∨ maxChars < batchCharSum b1 + batchHeadLen b2)
        (packSegments maxSegs maxChars segments) := by
  refine ⟨?_, ?_, ?_, ?_, ?_⟩
  · simpa using packGo_flatten maxSegs maxChars segments [] 0
  · intro b hb
    exact ⟨packGo_nonempty maxSegs maxChars segments [] 0 b hb,
      packGo_length_le maxSegs maxChars hms segments [] 0 (by simp) b hb⟩
  · exact fun b hb => packGo_charBound maxSegs maxChars segments [] 0 rfl (by simp) b hb
  · exact fun b hb => packGo_oversized maxSegs maxChars segments [] 0 rfl (by simp) b hb
  · exact packGo_chain maxSegs maxChars segments [] 0 rfl

/-- C7 witness: the packing property applied to a concrete segment list with
max_batch_segments = 2 and max_batch_chars = 10 (the batch cap hypothesis
discharged at 2). -/
theorem c7_packing_witness :
    (packSegments 2 10
      [{ index := 0, content := "aaa".toList },
       { index := 1, content := "bbbb".toList },
       { index := 2, content := "   ".toList },
       { index := 3, content := "ddddddddddddd".toList }]).flatten =
      ([{ index := 0, content := "aaa".toList },
        { index := 1, content := "bbbb".toList },
        { index := 2, content := "   ".toList },
        { index := 3, content := "ddddddddddddd".toList }] : List Segment).filter
        (fun s => isBatchable s) :=
  (c7_packing _ 2 10 (by decide)).1

/-! Claim C10. -/

/-- C10: OpenRouterTranslator.__init__ clamps max_batch_chars,
max_batch_segments, the request-concurrency semaphore permits, and the
pending-batch semaphore permits to at least 1 for every constructor input, and
defaults the pending-batch limit to max(1, 2 x concurrency) when it is
unspecified. -/
theorem c10_init_clamping (maxBatchChars maxBatchSegments concurrency : Int)
    (maxPendingBatches : Option Int) :
    (1 ≤ (translatorInitLimits maxBatchChars maxBatchSegments concurrency
        maxPendingBatches).1
      ∧ 1 ≤ (translatorInitLimits maxBatchChars maxBatchSegments concurrency
          maxPendingBatches).2.1
      ∧ 1 ≤ (translatorInitLimits maxBatchChars maxBatchSegments concurrency
          maxPendingBatches).2.2.1
      ∧ 1 ≤ (translatorInitLimits maxBatchChars maxBatchSegments concurrency
          maxPendingBatches).2.2.2)
    ∧ (translatorInitLimits maxBatchChars maxBatchSegments concurrency none).2.2.2 =
        max 1 (concurrency * 2) := by
  constructor
  · refine ⟨le_max_left _ _, le_max_left _ _, le_max_left _ _, ?_⟩
    cases maxPendingBatches <;> exact le_max_left _ _
  · show max 1 (max 1 (concurrency * 2)) = max 1 (concurrency * 2)
    rw [← max_assoc]
    simp

/-! Claim C2. -/

/-- C2 counterexample: the specification ascribes a cached_segments counter to
TranslatorStats and a cache collaborator to the scheduler, but the
TranslatorStats dataclass declares no such counter and
OpenRouterTranslator.__init__ accepts no cache parameter. -/
theorem c2_counterexample :
    "cached_segments" ∈ specTranslatorStatsFields ∧
    "cached_segments" ∉ translatorStatsFields ∧
    "cache" ∉ openRouterInitParams := by
  refine ⟨by decide, by decide, by decide⟩

/-- C2 (amended): the transfold scheduler has no cache integration at all:
OpenRouterTranslator takes no cache collaborator, TranslatorStats has exactly
the six counters total_segments, api_calls, retries, prompt_tokens,
completion_tokens and batches (no cached_segments), and translate_segments
schedules every translatable, non-whitespace segment for a remote request
(none is resolved from a cache). -/
theorem c2_no_cache (segments : List Segment) (maxSegs maxChars : Nat) :
    "cache" ∉ openRouterInitParams
    ∧ translatorStatsFields = ["total_segments", "api_calls", "retries",
        "prompt_tokens", "completion_tokens", "batches"]
    ∧ "cached_segments" ∉ translatorStatsFields
    ∧ (packSegments maxSegs maxChars segments).flatten =
        segments.filter (fun s => isBatchable s) := by
  refine ⟨by decide, rfl, by decide, ?_⟩
  simpa using packGo_flatten maxSegs maxChars segments [] 0

/-! Translator retry and fallback lemmas. -/

theorem addUsage_eq (st : TranslatorStats) (u : Option (Nat × Nat)) :
    addUsage st u =
      { st with prompt_tokens := st.prompt_tokens + usagePt u,
                completion_tokens := st.completion_tokens + usageCt u } := by
  cases u with
  | none => simp [addUsage, usagePt, usageCt]
  | some p => cases p with | mk a b => rfl

theorem range_flatMap_succ_left {α : Type} (g : Nat → List α) (k : Nat) :
    (List.range (k + 1)).flatMap g =
      g 0 ++ (List.range k).flatMap (fun i => g (i + 1)) := by
  induction k with
  | zero =>
    rw [List.range_succ]
    simp
  | succ k ih =>
    rw [List.range_succ, List.flatMap_append, ih, List.range_succ, List.flatMap_append]
    simp

theorem translateIndividually_success (ts : Nat → List Char)
    (us : Nat → Option (Nat × Nat)) (batch : List Segment) :
    ∀ (callIdx : Nat) (st : TranslatorStats) (evs : List Event),
      translateIndividually (fun i => SingleOutcome.success (ts i) (us i)) callIdx st evs batch =
        ({ st with
            api_calls := st.api_calls + batch.length,
            prompt_tokens := st.prompt_tokens +
              ((List.range' callIdx batch.length).map (fun i => usagePt (us i))).sum,
            completion_tokens := st.completion_tokens +
              ((List.range' callIdx batch.length).map (fun i => usageCt (us i))).sum },
         evs ++ batch.flatMap (fun seg => [Event.singleRequest seg.content, Event.progress 1]),
         List.zipWith (fun seg i => { seg with translation := some (ts i) }) batch
           (List.range' callIdx batch.length),
         none) := by
  induction batch with
  | nil =>
    intro callIdx st evs
    simp [translateIndividually]
  | cons seg rest ih =>
    intro callIdx st evs
    rw [translateIndividually]
    simp only []
    rw [addUsage_eq, ih]
    obtain ⟨a1, a2, a3, a4, a5, a6⟩ := st
    simp only [List.range'_succ, List.map_cons, List.sum_cons, List.length_cons,
      List.zipWith_cons_cons, List.flatMap_cons, Prod.mk.injEq, TranslatorStats.mk.injEq,
      List.append_assoc, List.cons_append, List.nil_append, eq_self_iff_true, true_and,
      and_true]
    refine ⟨by omega, by omega, by omega⟩

theorem translateBatchGo_allFail (retry : Nat) (batchOracle : Nat → BatchOutcome)
    (errs : Nat → String) (horc : ∀ a, batchOracle a = BatchOutcome.failure (errs a))
    (sOrc : Nat → SingleOutcome) (jitter : Nat → ℚ) (batch : List Segment) :
    ∀ (k attempt : Nat), retry - attempt = k → 1 ≤ attempt → attempt ≤ retry →
    ∀ (lastError : Option String) (st : TranslatorStats) (evs : List Event),
      translateBatchGo retry batchOracle sOrc jitter batch attempt lastError st evs =
        ({ st with retries := st.retries + k },
         evs ++ (List.range k).flatMap (fun i =>
           [Event.batchRequest batch.length,
            Event.retryCallback (attempt + i) (errs (attempt + i))
              (backoffDelay (attempt + i) + jitter (attempt + i)),
            Event.sleep (backoffDelay (attempt + i) + jitter (attempt + i))]) ++
          [Event.batchRequest batch.length],
         batch, BatchResult.translationError (some (errs retry))) := by
  intro k
  induction k with
  | zero =>
    intro attempt hk h1 h2 lastError st evs
    obtain rfl : attempt = retry := by omega
    rw [translateBatchGo, if_neg (by omega), horc attempt]
    simp only []
    rw [if_pos le_rfl]
    simp
  | succ k ih =>
    intro attempt hk h1 h2 lastError st evs
    rw [translateBatchGo, if_neg (by omega), horc attempt]
    simp only []
    rw [if_neg (by omega)]
    rw [ih (attempt + 1) (by omega) (by omega) (by omega)]
    simp only [Prod.mk.injEq]
    refine ⟨?_, ?_, trivial⟩
    · obtain ⟨a1, a2, a3, a4, a5, a6⟩ := st
      simp only [TranslatorStats.mk.injEq, eq_self_iff_true, true_and, and_true]
      omega
    · rw [range_flatMap_succ_left]
      have hsh : (fun i =>
          [Event.batchRequest batch.length,
           Event.retryCallback (attempt + (i + 1)) (errs (attempt + (i + 1)))
             (backoffDelay (attempt + (i + 1)) + jitter (attempt + (i + 1))),
           Event.sleep (backoffDelay (attempt + (i + 1)) + jitter (attempt + (i + 1)))]) =
          (fun i =>
          [Event.batchRequest batch.length,
           Event.retryCallback (attempt + 1 + i) (errs (attempt + 1 + i))
             (backoffDelay (attempt + 1 + i) + jitter (attempt + 1 + i)),
           Event.sleep (backoffDelay (attempt + 1 + i) + jitter (attempt + 1 + i))]) := by
        funext i
        rw [show attempt + (i + 1) = attempt + 1 + i by omega]
      rw [hsh]
      simp only [Nat.add_zero, List.append_assoc, List.cons_append, List.nil_append]

/-! Claim C8. -/

/-- C8: when every attempt of a batch request fails with a non-mismatch error,
_translate_batch retries up to the configured number of attempts: exactly
`retry` requests are issued; before the i-th sleep the retry observer receives
the attempt number, the error, and the delay min(30, 2^(attempt-1)) plus the
jitter drawn after the cap is applied; the retries counter grows by retry - 1;
and the run ends in a terminal TranslationError carrying the last observed
error. -/
theorem c8_retry_backoff (retry : Nat) (errs : Nat → String)
    (sOrc : Nat → SingleOutcome) (jitter : Nat → ℚ) (batch : List Segment)
    (st : TranslatorStats) (hret : 1 ≤ retry) :
    translateBatch retry (fun a => BatchOutcome.failure (errs a)) sOrc jitter batch st =
      ({ st with retries := st.retries + (retry - 1) },
       (List.range (retry - 1)).flatMap (fun i =>
         [Event.batchRequest batch.length,
          Event.retryCallback (1 + i) (errs (1 + i)) (min 30 (2 ^ i) + jitter (1 + i)),
          Event.sleep (min 30 (2 ^ i) + jitter (1 + i))]) ++
        [Event.batchRequest batch.length],
       batch, BatchResult.translationError (some (errs retry))) := by
  rw [translateBatch,
    translateBatchGo_allFail retry _ errs (fun a => rfl) sOrc jitter batch (retry - 1) 1
      (by omega) le_rfl hret none st []]
  simp only [List.nil_append, Prod.mk.injEq]
  refine ⟨?_, ?_, trivial⟩
  · trivial
  · have hbd : ∀ i : Nat, backoffDelay (1 + i) = min 30 (2 ^ i) := by
      intro i
      rw [backoffDelay]
      congr 2
      omega
    simp only [hbd]

/-- C8 witness: the retry schedule evaluated at retry = 3 with constant jitter
one quarter on a singleton batch. -/
theorem c8_retry_backoff_witness :
    translateBatch 3 (fun a => BatchOutcome.failure (toString a))
      (fun _ => SingleOutcome.failure "x") (fun _ => (1 : ℚ) / 4)
      [{ index := 0, content := "s".toList }] ⟨0, 0, 0, 0, 0, 0⟩ =
      ({ (⟨0, 0, 0, 0, 0, 0⟩ : TranslatorStats) with retries := 0 + (3 - 1) },
       (List.range (3 - 1)).flatMap (fun i =>
         [Event.batchRequest ([{ index := 0, content := "s".toList }] : List Segment).length,
          Event.retryCallback (1 + i) (toString (1 + i)) (min 30 (2 ^ i) + (1 : ℚ) / 4),
          Event.sleep (min 30 (2 ^ i) + (1 : ℚ) / 4)]) ++
        [Event.batchRequest ([{ index := 0, content := "s".toList }] : List Segment).length],
       [{ index := 0, content := "s".toList }],
       BatchResult.translationError (some (toString 3))) :=
  c8_retry_backoff 3 (fun a => toString a) (fun _ => SingleOutcome.failure "x")
    (fun _ => (1 : ℚ) / 4) [{ index := 0, content := "s".toList }] ⟨0, 0, 0, 0, 0, 0⟩
    (by decide)

/-! Claim C1. -/

/-- C1 (amended): when the first batch request reports a segment-count
mismatch, _translate_batch does not retry the batch call: it issues exactly
one batch request, adds the mismatched batch's token usage and the api_calls
and batches counters exactly once, and decomposes the batch into exactly one
single-segment request per segment, in order, so the per-segment fallback call
count equals the batch size and (when the single requests succeed) every
segment receives a translation.  Each fallback request is issued exactly once,
with no retry and no backoff sleep (the retries counter and the event list
show neither). -/
theorem c1_mismatch_fallback (retry : Nat) (batchOracle : Nat → BatchOutcome)
    (u : Option (Nat × Nat)) (ts : Nat → List Char) (us : Nat → Option (Nat × Nat))
    (jitter : Nat → ℚ) (batch : List Segment) (st : TranslatorStats)
    (hret : 1 ≤ retry) (horc : batchOracle 1 = BatchOutcome.mismatch u) :
    translateBatch retry batchOracle (fun i => SingleOutcome.success (ts i) (us i))
        jitter batch st =
      ({ st with
          api_calls := st.api_calls + 1 + batch.length,
          batches := st.batches + 1,
          prompt_tokens := st.prompt_tokens + usagePt u +
            ((List.range' 0 batch.length).map (fun i => usagePt (us i))).sum,
          completion_tokens := st.completion_tokens + usageCt u +
            ((List.range' 0 batch.length).map (fun i => usageCt (us i))).sum },
       [Event.batchRequest batch.length] ++
         batch.flatMap (fun seg => [Event.singleRequest seg.content, Event.progress 1]),
       List.zipWith (fun seg i => { seg with translation := some (ts i) }) batch
         (List.range' 0 batch.length),
       BatchResult.ok) := by
  rw [translateBatch, translateBatchGo, if_neg (by omega), horc]
  simp only []
  rw [addUsage_eq, translateIndividually_success]
  simp only [List.nil_append]

/-- C1 counterexample: the fallback path does not retry per-segment requests:
with a retry budget of 3, a mismatched batch whose single-segment fallback
request fails yields no retry-observer event, no backoff sleep, and no second
request; the segment is left untranslated and the error escapes the retry
loop uncaught. -/
theorem c1_counterexample :
    translateBatch 3 (fun _ => BatchOutcome.mismatch none)
      (fun _ => SingleOutcome.failure "boom") (fun _ => 0)
      [{ index := 0, content := "s".toList }] ⟨0, 0, 0, 0, 0, 0⟩ =
      (⟨0, 1, 0, 0, 0, 1⟩,
       [Event.batchRequest 1, Event.singleRequest "s".toList],
       [{ index := 0, content := "s".toList }],
       BatchResult.singleFailure "boom") := by
  simp +decide [translateBatch, translateBatchGo, translateIndividually, addUsage]

/-- C1 witness: the fallback behaviour evaluated on a two-segment batch whose
batch request reports a mismatch with usage (5, 7) and whose single requests
succeed with usage (1, 2) each. -/
theorem c1_mismatch_fallback_witness :
    translateBatch 3 (fun _ => BatchOutcome.mismatch (some (5, 7)))
      (fun i => SingleOutcome.success (("tx" ++ toString i).toList) (some (1, 2)))
      (fun _ => (1 : ℚ) / 4)
      [{ index := 0, content := "seg-0".toList }, { index := 1, content := "seg-1".toList }]
      ⟨0, 0, 0, 0, 0, 0⟩ =
      ({ (⟨0, 0, 0, 0, 0, 0⟩ : TranslatorStats) with
          api_calls := 0 + 1 + ([{ index := 0, content := "seg-0".toList },
            { index := 1, content := "seg-1".toList }] : List Segment).length,
          batches := 0 + 1,
          prompt_tokens := 0 + usagePt (some (5, 7)) +
            ((List.range' 0 ([{ index := 0, content := "seg-0".toList },
              { index := 1, content := "seg-1".toList }] : List Segment).length).map
              (fun _ => usagePt (some (1, 2)))).sum,
          completion_tokens := 0 + usageCt (some (5, 7)) +
            ((List.range' 0 ([{ index := 0, content := "seg-0".toList },
              { index := 1, content := "seg-1".toList }] : List Segment).length).map
              (fun _ => usageCt (some (1, 2)))).sum },
       [Event.batchRequest ([{ index := 0, content := "seg-0".toList },
          { index := 1, content := "seg-1".toList }] : List Segment).length] ++
         ([{ index := 0, content := "seg-0".toList },
           { index := 1, content := "seg-1".toList }] : List Segment).flatMap
           (fun seg => [Event.singleRequest seg.content, Event.progress 1]),
       List.zipWith
         (fun (seg : Segment) (i : Nat) =>
           { seg with translation := some (("tx" ++ toString i).toList) })
         [{ index := 0, content := "seg-0".toList }, { index := 1, content := "seg-1".toList }]
         (List.range' 0 ([{ index := 0, content := "seg-0".toList },
           { index := 1, content := "seg-1".toList }] : List Segment).length),
       BatchResult.ok) :=
  c1_mismatch_fallback 3 (fun _ => BatchOutcome.mismatch (some (5, 7))) (some (5, 7))
    (fun i => ("tx" ++ toString i).toList) (fun _ => some (1, 2)) (fun _ => (1 : ℚ) / 4)
    [{ index := 0, content := "seg-0".toList }, { index := 1, content := "seg-1".toList }]
    ⟨0, 0, 0, 0, 0, 0⟩ (by decide) rfl

/-! Claim C4. -/

theorem pyStrip_eq_nil_iff (l : List Char) :
    pyStrip l = [] ↔ l.all pyIsSpace = true := by
  rw [pyStrip, List.reverse_eq_nil_iff, List.dropWhile_eq_nil_iff, List.all_eq_true]
  constructor
  · intro h a ha
    by_cases hd : a ∈ l.dropWhile pyIsSpace
    · exact h a (by simpa using hd)
    · have hsplit := @List.takeWhile_append_dropWhile _ pyIsSpace l
      rw [← hsplit] at ha
      rcases List.mem_append.mp ha with ht | ht
      · exact List.mem_takeWhile_imp ht
      · exact absurd ht hd
  · intro h a ha
    rw [List.mem_reverse] at ha
    exact h a ((List.dropWhile_sublist _).subset ha)

theorem parse_filterMap_eq (l : List (List Char)) :
    (l.filterMap (fun item =>
      let candidate := stripNl item
      if pyStrip candidate ≠ [] then some candidate else none)) =
    (l.map stripNl).filter (fun f => !(f.all pyIsSpace)) := by
  induction l with
  | nil => rfl
  | cons a l ih =>
    simp only [List.filterMap_cons, List.map_cons, List.filter_cons]
    by_cases h : pyStrip (stripNl a) = []
    · have hall : ((stripNl a).all pyIsSpace) = true := (pyStrip_eq_nil_iff _).mp h
      rw [if_neg (by simpa using h), hall]
      simpa using ih
    · have hall : ((stripNl a).all pyIsSpace) = false := by
        rcases Bool.eq_false_or_eq_true ((stripNl a).all pyIsSpace) with ht | hf
        · exact absurd ((pyStrip_eq_nil_iff _).mpr ht) h
        · exact hf
      rw [if_pos (by simpa using h), hall]
      simpa using ih

/-- C4 counterexample: _parse_batch_response does not discard only empty
trailing fragments: a whitespace-only fragment BETWEEN two delimiters is also
discarded, so the message "A<delim> <delim>B" parses as two fragments where
the claimed behaviour would see three and raise a mismatch. -/
theorem c4_counterexample :
    parseBatchResponse
        "A<TRANSFOLD_SEGMENT_BREAK> <TRANSFOLD_SEGMENT_BREAK>B".toList 2 ≠
      parseBatchResponseSpec
        "A<TRANSFOLD_SEGMENT_BREAK> <TRANSFOLD_SEGMENT_BREAK>B".toList 2 := by
  simp +decide [parseBatchResponse, parseBatchResponseSpec, splitOnSep, splitOnSepGo,
    batchDelimiter, stripNl, pyStrip, pyIsSpace]

/-- C4 (amended): _parse_batch_response splits the message on the reserved
delimiter, strips leading and trailing newlines from every fragment, discards
every fragment that is empty or whitespace-only wherever it occurs (not only
trailing ones), requires the remaining count to equal the batch size, and
returns the newline-stripped fragments in order, raising BatchSegmentMismatch
with the expected and actual counts otherwise. -/
theorem c4_parse_batch_response (text : List Char) (expected : Nat) :
    parseBatchResponse text expected = parseBatchResponseAmended text expected := by
  rw [parseBatchResponse, parseBatchResponseAmended]
  simp only []
  rw [parse_filterMap_eq]
  by_cases h :
      (((splitOnSep batchDelimiter text).map stripNl).filter
        (fun f => !(f.all pyIsSpace))).length = expected
  · rw [if_neg (by simpa using h), if_pos h]
  · rw [if_pos h, if_neg h]

/-! Ordered emitter lemmas. -/

theorem collectReadyChunk_spec (segs : List Segment) (i : Nat) :
    i ≤ (collectReadyChunk segs i).2 ∧
    (i ≤ segs.length → (collectReadyChunk segs i).2 ≤ segs.length) ∧
    (collectReadyChunk segs i).1 =
      ((segs.take (collectReadyChunk segs i).2).drop i).map Segment.output ∧
    (∀ j, i ≤ j → j < (collectReadyChunk segs i).2 → ∀ s, segs[j]? = some s →
      ¬(s.translate = true ∧ s.translation = none)) := by
  induction i using collectReadyChunk.induct segs with
  | case1 i hlen seg hcond =>
    rw [collectReadyChunk, dif_pos hlen]
    simp only []
    rw [if_pos hcond]
    refine ⟨le_rfl, fun h => h, ?_, ?_⟩
    · rw [List.drop_eq_nil_of_le (le_trans (List.length_take_le _ _) le_rfl)]
      simp
    · intro j h1 h2
      omega
  | case2 i hlen seg hcond ih =>
    rw [collectReadyChunk, dif_pos hlen]
    simp only []
    rw [if_neg hcond]
    obtain ⟨ih1, ih2, ih3, ih4⟩ := ih
    refine ⟨by omega, fun _ => ih2 (by omega), ?_, ?_⟩
    · simp only []
      rw [ih3]
      have hlt : i < (segs.take (collectReadyChunk segs (i + 1)).2).length := by
        rw [List.length_take]
        omega
      rw [List.drop_eq_getElem_cons hlt, List.map_cons]
      congr 1
      rw [List.getElem_take]
    · intro j h1 h2 s hsj
      rcases Nat.eq_or_lt_of_le h1 with rfl | hlt
      · have hj2 := List.getElem?_eq_getElem hlen
        rw [hj2] at hsj
        have hse : s = segs[i] := by simpa using hsj.symm
        rw [hse]
        exact hcond
      · exact ih4 j (by omega) h2 s hsj
  | case3 i hlen =>
    rw [collectReadyChunk, dif_neg hlen]
    refine ⟨le_rfl, fun h => h, ?_, ?_⟩
    · rw [List.drop_eq_nil_of_le (le_trans (List.length_take_le _ _) le_rfl)]
      simp
    · intro j h1 h2
      omega

theorem setTranslation_length (segs : List Segment) (i : Nat) (t : List Char) :
    (setTranslation segs i t).length = segs.length := by
  rw [setTranslation]
  cases h : segs[i]? with
  | none => rfl
  | some seg => exact List.length_set _ _ _

theorem setTranslation_getElem_ne (segs : List Segment) (i : Nat) (t : List Char)
    {j : Nat} (h : ¬i = j) : (setTranslation segs i t)[j]? = segs[j]? := by
  rw [setTranslation]
  cases hs : segs[i]? with
  | none => rfl
  | some seg =>
    rw [List.getElem?_set]
    rw [if_neg h]

theorem setTranslation_getElem_self {segs : List Segment} {i : Nat} {t : List Char}
    {s : Segment} (hs : segs[i]? = some s) :
    (setTranslation segs i t)[i]? = some { s with translation := some t } := by
  have hilen : i < segs.length := by
    by_contra hc
    rw [List.getElem?_eq_none (by omega)] at hs
    exact absurd hs (by simp)
  rw [setTranslation, hs, List.getElem?_set]
  rw [if_pos rfl, if_pos hilen]

theorem mergeUpTo_zero (segs : List Segment) : mergeUpTo segs 0 = [] := rfl

theorem mergeUpTo_succ (segs : List Segment) (n : Nat) :
    mergeUpTo segs (n + 1) = mergeUpTo segs n ++
      (match segs[n]? with | some s => s.output | none => []) := by
  rw [mergeUpTo, mergeUpTo, List.take_succ, List.map_append, List.flatten_append]
  congr 1
  cases segs[n]? with
  | none => rfl
  | some s => simp [Option.toList]

theorem mergeUpTo_congr (segs1 segs2 : List Segment) (n : Nat)
    (h : ∀ j, j < n → (segs1[j]?).map Segment.output = (segs2[j]?).map Segment.output) :
    mergeUpTo segs1 n = mergeUpTo segs2 n := by
  induction n with
  | zero => rfl
  | succ n ih =>
    rw [mergeUpTo_succ, mergeUpTo_succ, ih (fun j hj => h j (by omega))]
    congr 1
    have hn := h n (by omega)
    cases h1 : segs1[n]? with
    | none =>
      rw [h1] at hn
      cases h2 : segs2[n]? with
      | none => rfl
      | some s2 => rw [h2] at hn; simp at hn
    | some s1 =>
      rw [h1] at hn
      cases h2 : segs2[n]? with
      | none => rw [h2] at hn; simp at hn
      | some s2 =>
        rw [h2] at hn
        simpa using hn

theorem mergeUpTo_decomp (segs : List Segment) {a b : Nat} (hab : a ≤ b) :
    mergeUpTo segs b = mergeUpTo segs a ++
      (((segs.take b).drop a).map Segment.output).flatten := by
  rw [mergeUpTo, mergeUpTo]
  conv_lhs => rw [show segs.take b = (segs.take b).take a ++ (segs.take b).drop a from
    (List.take_append_drop a _).symm]
  rw [List.take_take, min_eq_left hab, List.map_append, List.flatten_append]

theorem mergeUpTo_prefix_merge (segs : List Segment) (i : Nat) :
    mergeUpTo segs i <+: SegmentedDocument.merge ⟨segs⟩ := by
  rw [mergeUpTo, SegmentedDocument.merge]
  refine ⟨((segs.drop i).map Segment.output).flatten, ?_⟩
  rw [← List.flatten_append, ← List.map_append, List.take_append_drop]

theorem emitStep_spec (st : EmitState) (i : Nat) (t : List Char)
    (rem : List (Nat × List Char))
    (hA : (st.emitted.map (fun e => e.1)).flatten = mergeUpTo st.segs st.nextEmit)
    (hB : ∀ j, j < st.nextEmit → ∀ s, st.segs[j]? = some s →
      ¬(s.translate = true ∧ s.translation = none))
    (hbound : st.nextEmit ≤ st.segs.length)
    (hC : ∀ e ∈ ((i, t) :: rem), ∃ s, st.segs[e.1]? = some s ∧ s.translation = none ∧
      (s.translate = true ∨ e.2 = s.content))
    (hD : (((i, t) :: rem).map Prod.fst).Nodup) :
    (((emitStep st (i, t)).emitted.map (fun e => e.1)).flatten =
      mergeUpTo (emitStep st (i, t)).segs (emitStep st (i, t)).nextEmit)
    ∧ (∀ j, j < (emitStep st (i, t)).nextEmit → ∀ s,
        (emitStep st (i, t)).segs[j]? = some s →
        ¬(s.translate = true ∧ s.translation = none))
    ∧ (emitStep st (i, t)).nextEmit ≤ (emitStep st (i, t)).segs.length
    ∧ (∀ e ∈ rem, ∃ s, (emitStep st (i, t)).segs[e.1]? = some s ∧
        s.translation = none ∧ (s.translate = true ∨ e.2 = s.content))
    ∧ (rem.map Prod.fst).Nodup
    ∧ st.nextEmit ≤ (emitStep st (i, t)).nextEmit
    ∧ (emitStep st (i, t)).segs.length = st.segs.length
    ∧ (∀ j, j < st.nextEmit →
        ((emitStep st (i, t)).segs[j]?).map Segment.output =
          (st.segs[j]?).map Segment.output)
    ∧ (∃ suffix, (emitStep st (i, t)).emitted = st.emitted ++ suffix ∧
        ∀ e ∈ suffix, e.1 ≠ []) := by
  obtain ⟨s0, hs0, hs0n, hs0p⟩ := hC (i, t) (List.mem_cons_self _ _)
  have hlen : (setTranslation st.segs i t).length = st.segs.length :=
    setTranslation_length _ _ _
  have hget : ∀ j, ¬j = i → (setTranslation st.segs i t)[j]? = st.segs[j]? := by
    intro j hj
    exact setTranslation_getElem_ne _ _ _ (fun h => hj h.symm)
  have hgeti : (setTranslation st.segs i t)[i]? =
      some { s0 with translation := some t } := setTranslation_getElem_self hs0
  have hstab : ∀ j, j < st.nextEmit →
      ((setTranslation st.segs i t)[j]?).map Segment.output =
        (st.segs[j]?).map Segment.output := by
    intro j hj
    by_cases hji : j = i
    · subst hji
      rw [hgeti, hs0]
      have hnt : ¬s0.translate = true := fun ht => hB j hj s0 hs0 ⟨ht, hs0n⟩
      have hts : t = s0.content := by
        rcases hs0p with h | h
        · exact absurd h hnt
        · exact h
      simp [Segment.output, hs0n, hts]
    · rw [hget j hji]
  obtain ⟨hc1, hc2, hc3, hc4⟩ := collectReadyChunk_spec (setTranslation st.segs i t) st.nextEmit
  have hbound1 : (collectReadyChunk (setTranslation st.segs i t) st.nextEmit).2 ≤
      (setTranslation st.segs i t).length := hc2 (by rw [hlen]; exact hbound)
  have hmidstab : mergeUpTo (setTranslation st.segs i t) st.nextEmit =
      mergeUpTo st.segs st.nextEmit := mergeUpTo_congr _ _ _ hstab
  have hdecomp : mergeUpTo (setTranslation st.segs i t)
      (collectReadyChunk (setTranslation st.segs i t) st.nextEmit).2 =
      mergeUpTo (setTranslation st.segs i t) st.nextEmit ++
        (collectReadyChunk (setTranslation st.segs i t) st.nextEmit).1.flatten := by
    rw [mergeUpTo_decomp _ hc1, ← hc3]
  have hB1 : ∀ j, j < (collectReadyChunk (setTranslation st.segs i t) st.nextEmit).2 →
      ∀ s, (setTranslation st.segs i t)[j]? = some s →
      ¬(s.translate = true ∧ s.translation = none) := by
    intro j hj s hsj
    by_cases hjn : j < st.nextEmit
    · by_cases hji : j = i
      · subst hji
        rw [hgeti] at hsj
        have : s = { s0 with translation := some t } := by simpa using hsj.symm
        rw [this]
        simp
      · rw [hget j hji] at hsj
        exact hB j hjn s hsj
    · exact hc4 j (by omega) hj s hsj
  have hC1 : ∀ e ∈ rem, ∃ s, (setTranslation st.segs i t)[e.1]? = some s ∧
      s.translation = none ∧ (s.translate = true ∨ e.2 = s.content) := by
    intro e he
    obtain ⟨s, hsa, hsb, hsc⟩ := hC e (List.mem_cons_of_mem _ he)
    have hne : ¬e.1 = i := by
      intro hcon
      have hmem : e.1 ∈ rem.map Prod.fst := List.mem_map_of_mem _ he
      rw [hcon] at hmem
      simp only [List.map_cons, List.nodup_cons] at hD
      exact hD.1 hmem
    exact ⟨s, by rw [hget e.1 hne]; exact hsa, hsb, hsc⟩
  have hD1 : (rem.map Prod.fst).Nodup := by
    simp only [List.map_cons, List.nodup_cons] at hD
    exact hD.2
  rw [emitStep]
  simp only []
  by_cases hch : (collectReadyChunk (setTranslation st.segs i t) st.nextEmit).1.flatten = []
  · rw [if_pos hch]
    refine ⟨?_, hB1, hbound1, hC1, hD1, hc1, hlen, hstab, [], by simp, by simp⟩
    rw [hA, hdecomp, hch, hmidstab]
    simp
  · rw [if_neg hch]
    refine ⟨?_, hB1, hbound1, hC1, hD1, hc1, hlen, hstab,
      [((collectReadyChunk (setTranslation st.segs i t) st.nextEmit).1.flatten,
        st.nextEmit, (collectReadyChunk (setTranslation st.segs i t) st.nextEmit).2)],
      rfl, by simpa using hch⟩
    rw [List.map_append, List.flatten_append, hA, hdecomp, hmidstab]
    simp

theorem emitRun_master (events : List (Nat × List Char)) :
    ∀ (rest : List (Nat × List Char)) (st : EmitState),
      ((st.emitted.map (fun e => e.1)).flatten = mergeUpTo st.segs st.nextEmit) →
      (∀ j, j < st.nextEmit → ∀ s, st.segs[j]? = some s →
        ¬(s.translate = true ∧ s.translation = none)) →
      st.nextEmit ≤ st.segs.length →
      (∀ e ∈ events ++ rest, ∃ s, st.segs[e.1]? = some s ∧ s.translation = none ∧
        (s.translate = true ∨ e.2 = s.content)) →
      (((events ++ rest).map Prod.fst)).Nodup →
      ((((events.foldl emitStep st).emitted.map (fun e => e.1)).flatten =
          mergeUpTo (events.foldl emitStep st).segs (events.foldl emitStep st).nextEmit)
        ∧ (∀ j, j < (events.foldl emitStep st).nextEmit → ∀ s,
            (events.foldl emitStep st).segs[j]? = some s →
            ¬(s.translate = true ∧ s.translation = none))
        ∧ (events.foldl emitStep st).nextEmit ≤ (events.foldl emitStep st).segs.length
        ∧ (∀ e ∈ rest, ∃ s, (events.foldl emitStep st).segs[e.1]? = some s ∧
            s.translation = none ∧ (s.translate = true ∨ e.2 = s.content))
        ∧ (rest.map Prod.fst).Nodup
        ∧ st.nextEmit ≤ (events.foldl emitStep st).nextEmit
        ∧ (events.foldl emitStep st).segs.length = st.segs.length
        ∧ (∀ j, j < st.nextEmit →
            ((events.foldl emitStep st).segs[j]?).map Segment.output =
              (st.segs[j]?).map Segment.output)
        ∧ (∃ suffix, (events.foldl emitStep st).emitted = st.emitted ++ suffix ∧
            ∀ e ∈ suffix, e.1 ≠ [])) := by
  induction events with
  | nil =>
    intro rest st hA hB hbound hC hD
    refine ⟨hA, hB, hbound, ?_, ?_, le_rfl, rfl, fun j _ => rfl, [], by simp, by simp⟩
    · simpa using hC
    · simpa using hD
  | cons e evs ih =>
    intro rest st hA hB hbound hC hD
    obtain ⟨i, t⟩ := e
    obtain ⟨sA, sB, sbound, sC, sD, smono, slen, sstab, suffix1, hsuf1, hsuf1ne⟩ :=
      emitStep_spec st i t (evs ++ rest) hA hB hbound (by simpa using hC) (by simpa using hD)
    obtain ⟨mA, mB, mbound, mC, mD, mmono, mlen, mstab, suffix2, hsuf2, hsuf2ne⟩ :=
      ih rest (emitStep st (i, t)) sA sB sbound sC sD
    rw [List.foldl_cons]
    refine ⟨mA, mB, mbound, mC, mD, le_trans smono mmono, by rw [mlen, slen], ?_,
      suffix1 ++ suffix2, ?_, ?_⟩
    · intro j hj
      rw [mstab j (by omega), sstab j hj]
    · rw [hsuf2, hsuf1, List.append_assoc]
    · intro e2 he2
      rcases List.mem_append.mp he2 with h | h
      · exact hsuf1ne e2 h
      · exact hsuf2ne e2 h

/-! Claim C9. -/

/-- C9: for every resolution order (each segment resolved at most once, with
pass-through segments rewritten to their own content), the streaming emitter
only ever appends non-empty chunks, after any prefix of the resolution events
the concatenation of all chunks emitted so far equals the outputs of the
segments below the current next_emit_index (evaluated in the final segment
state, so earlier emissions are never invalidated), next_emit_index only
grows, and every such prefix of emitted text is a prefix of the final merged
document — no gap, no repetition, no reordering. -/
theorem c9_ordered_emission (segs0 : List Segment) (events : List (Nat × List Char))
    (h0 : ∀ s ∈ segs0, s.translation = none)
    (hnd : (events.map Prod.fst).Nodup)
    (hev : ∀ e ∈ events, ∃ s, segs0[e.1]? = some s ∧
      (s.translate = true ∨ e.2 = s.content)) :
    (∀ k, ((runEmitter segs0 (events.take k)).emitted.map (fun e => e.1)).flatten =
        mergeUpTo (runEmitter segs0 events).segs
          (runEmitter segs0 (events.take k)).nextEmit)
    ∧ (∀ k, (runEmitter segs0 (events.take k)).nextEmit ≤
        (runEmitter segs0 events).nextEmit)
    ∧ (∀ i, mergeUpTo (runEmitter segs0 events).segs i <+:
        SegmentedDocument.merge ⟨(runEmitter segs0 events).segs⟩)
    ∧ (∀ e ∈ (runEmitter segs0 events).emitted, e.1 ≠ [])
    ∧ ((runEmitter segs0 events).emitted.map (fun e => e.1)).flatten =
        mergeUpTo (runEmitter segs0 events).segs
          (runEmitter segs0 events).nextEmit := by
  have hCinit : ∀ e ∈ events, ∃ s, segs0[e.1]? = some s ∧ s.translation = none ∧
      (s.translate = true ∨ e.2 = s.content) := by
    intro e he
    obtain ⟨s, hsa, hsc⟩ := hev e he
    exact ⟨s, hsa, h0 s (List.getElem?_mem hsa), hsc⟩
  have hBinit : ∀ j, j < (⟨segs0, 0, []⟩ : EmitState).nextEmit → ∀ s,
      (⟨segs0, 0, []⟩ : EmitState).segs[j]? = some s →
      ¬(s.translate = true ∧ s.translation = none) := by
    intro j hj
    exact absurd hj (by simp)
  have hsplit : ∀ k, runEmitter segs0 events =
      (events.drop k).foldl emitStep (runEmitter segs0 (events.take k)) := by
    intro k
    rw [runEmitter, runEmitter, ← List.foldl_append]
    rw [List.take_append_drop]
  have hmainAt : ∀ k, _ := fun k =>
    emitRun_master (events.take k) (events.drop k) ⟨segs0, 0, []⟩ rfl hBinit
      (Nat.zero_le _)
      (by rw [List.take_append_drop]; exact hCinit)
      (by rw [List.take_append_drop]; exact hnd)
  have hfull := emitRun_master events [] ⟨segs0, 0, []⟩ rfl hBinit (Nat.zero_le _)
    (by simpa using hCinit) (by simpa using hnd)
  refine ⟨?_, ?_, fun i => mergeUpTo_prefix_merge _ i, ?_, ?_⟩
  · intro k
    obtain ⟨mA, mB, mbound, mC, mD, _, _, _, _⟩ := hmainAt k
    obtain ⟨_, _, _, _, _, _, _, tstab, _⟩ :=
      emitRun_master (events.drop k) [] (runEmitter segs0 (events.take k)) mA mB mbound
        (by simpa using mC) (by simpa using mD)
    rw [hsplit k]
    rw [mergeUpTo_congr _ _ _ (fun j hj => tstab j hj)]
    exact mA
  · intro k
    obtain ⟨mA, mB, mbound, mC, mD, _, _, _, _⟩ := hmainAt k
    obtain ⟨_, _, _, _, _, tmono, _, _, _⟩ :=
      emitRun_master (events.drop k) [] (runEmitter segs0 (events.take k)) mA mB mbound
        (by simpa using mC) (by simpa using mD)
    rw [hsplit k]
    exact tmono
  · obtain ⟨_, _, _, _, _, _, _, _, suffix, hsuf, hne⟩ := hfull
    intro e he
    have hre : (runEmitter segs0 events).emitted = suffix := by
      show (events.foldl emitStep (⟨segs0, 0, []⟩ : EmitState)).emitted = suffix
      rw [hsuf]
      simp
    rw [hre] at he
    exact hne e he
  · exact hfull.1

/-- C9 witness: three segments (the last one non-translatable) resolved in
reverse order; the emitter releases the single chunk "abC" covering the whole
document once segment 0 resolves. -/
theorem c9_ordered_emission_witness :
    ((runEmitter
        [{ index := 0, content := "A".toList },
         { index := 1, content := "B".toList },
         { index := 2, content := "C".toList, translate := false }]
        [(1, "b".toList), (0, "a".toList)]).emitted.map (fun e => e.1)).flatten =
      mergeUpTo
        (runEmitter
          [{ index := 0, content := "A".toList },
           { index := 1, content := "B".toList },
           { index := 2, content := "C".toList, translate := false }]
          [(1, "b".toList), (0, "a".toList)]).segs
        (runEmitter
          [{ index := 0, content := "A".toList },
           { index := 1, content := "B".toList },
           { index := 2, content := "C".toList, translate := false }]
          [(1, "b".toList), (0, "a".toList)]).nextEmit :=
  (c9_ordered_emission
    [{ index := 0, content := "A".toList },
     { index := 1, content := "B".toList },
     { index := 2, content := "C".toList, translate := false }]
    [(1, "b".toList), (0, "a".toList)]
    (by decide) (by decide)
    (by
      intro e he
      simp only [List.mem_cons, List.not_mem_nil, or_false] at he
      rcases he with rfl | rfl
      · exact ⟨{ index := 1, content := "B".toList }, rfl, Or.inl rfl⟩
      · exact ⟨{ index := 0, content := "A".toList }, rfl, Or.inl rfl⟩)).2.2.2.2

end Transfold
